import Mathlib

/-!
Verification of the minesweeper game-state engine (`sweeper.cpp`).

The C++ source is shallowly embedded: the packed cell bitfield becomes a
record whose 4-bit signed `neighbor_mines` field wraps through `wrap4`,
the flattened `std::vector<Cell>` becomes a `List Cell`, the recursive
flood-fill becomes a fuel-indexed function that also records every
flattened index it accesses, and the random positions drawn by
`std::uniform_int_distribution` become an explicit stream of naturals.
The main loop (turn counter, win check, command dispatch) is embedded as
`runTrace`, which returns the list of board states the loop passes
through.
-/

namespace Sweeper

/-- Embeds `struct Cell` (sweeper.cpp:14-25).  The C++ packs the fields in
a bitfield; `neighbor_mines` is a 4-bit signed field, so every store into
it goes through `wrap4`. -/
structure Cell where
  is_mine : Bool := false
  is_revealed : Bool := false
  is_flagged : Bool := false
  neighbor_mines : Int := 0
deriving Repr, DecidableEq, Inhabited

/-- Embeds `struct Board` (sweeper.cpp:33-44).  The seed is not modelled
directly: the positions its random engine produces are passed in as a
stream instead (see `initGo`). -/
structure Board where
  width : Int := 20
  height : Int := 20
  num_mines : Int := 70
  cells : List Cell := []
  game_over : Bool := false
  time : Nat := 0
deriving Repr, DecidableEq, Inhabited

/-- The flattened index `y * board.width + x` used everywhere in the source. -/
def idxB (b : Board) (x y : Int) : Int := y * b.width + x

/-- Reading `board.cells[i]`: out-of-range reads return the blank cell. -/
def getI (b : Board) (i : Int) : Cell :=
  if 0 ≤ i then b.cells.getD i.toNat default else default

/-- Writing `board.cells[i] = c`: out-of-range writes change nothing. -/
def setI (b : Board) (i : Int) (c : Cell) : Board :=
  if 0 ≤ i then { b with cells := b.cells.set i.toNat c } else b

/-- A coordinate inside the grid. -/
def inb (b : Board) (x y : Int) : Prop :=
  0 ≤ x ∧ x < b.width ∧ 0 ≤ y ∧ y < b.height

instance (b : Board) (x y : Int) : Decidable (inb b x y) := by
  unfold inb; infer_instance

/-- Embeds `for_each_neighbour` (sweeper.cpp:193-229): the up-to-eight
neighbours of `(x, y)`, produced in exactly the source's guard order. -/
def neighbours (b : Board) (x y : Int) : List (Int × Int) :=
  (if 0 < x then
    (x - 1, y) ::
      ((if 0 < y then [(x - 1, y - 1)] else []) ++
       (if y < b.height - 1 then [(x - 1, y + 1)] else []))
   else []) ++
  (if x < b.width - 1 then
    (x + 1, y) ::
      ((if 0 < y then [(x + 1, y - 1)] else []) ++
       (if y < b.height - 1 then [(x + 1, y + 1)] else []))
   else []) ++
  (if 0 < y then [(x, y - 1)] else []) ++
  (if y < b.height - 1 then [(x, y + 1)] else [])

/-- Value stored by an assignment to the 4-bit signed bitfield
`neighbor_mines` (two's-complement wrap into `[-8, 7]`). -/
def wrap4 (n : Int) : Int := (n + 8) % 16 - 8

/-- The neighbour-increment lambda of `init_board` (sweeper.cpp:257-264). -/
def incNeighbour (b : Board) (x y : Int) : Board :=
  let i := idxB b x y
  let c := getI b i
  if c.is_mine then b
  else setI b i { c with neighbor_mines := wrap4 (c.neighbor_mines + 1) }

/-- One successful mine placement in `init_board` (sweeper.cpp:246-264):
mark the cell as a mine, zero its count, and bump each non-mine neighbour. -/
def placeMineAt (b : Board) (pos : Int) : Board :=
  let c := getI b pos
  let b1 := setI b pos { c with is_mine := true, neighbor_mines := 0 }
  let cx := pos % b.width
  let cy := pos / b.width
  (neighbours b1 cx cy).foldl (fun bb q => incNeighbour bb q.1 q.2) b1

/-- The placement loop of `init_board` (sweeper.cpp:239-265).  `stream k`
is the `k`-th value drawn from the uniform distribution; the C++ loop has
no bound, so the embedding carries fuel and returns `none` when the fuel
runs out before `num_mines` mines are placed. -/
def initGo (stream : Nat → Nat) (blocked : Int) :
    Nat → Nat → Int → Board → Option Board
  | 0, _, placed, b => if placed < b.num_mines then none else some b
  | fuel + 1, k, placed, b =>
    if placed < b.num_mines then
      let pos : Int := (stream k : Int)
      if pos = blocked then initGo stream blocked fuel (k + 1) placed b
      else if (getI b pos).is_mine then initGo stream blocked fuel (k + 1) placed b
      else initGo stream blocked fuel (k + 1) (placed + 1) (placeMineAt b pos)
    else some b

/-- Embeds `init_board` (sweeper.cpp:232-266). -/
def init_board (stream : Nat → Nat) (fuel : Nat) (b : Board) (x y : Int) :
    Option Board :=
  initGo stream (idxB b x y) fuel 0 0 b

/-- Runs `f` on a list of coordinates, threading the board and
concatenating access logs; this is the board-mutating traversal performed
by `for_each_neighbour(board, x, y, reveal)`. -/
def revealSeq (f : Board → Int → Int → Option (Board × List Int)) :
    Board → List (Int × Int) → Option (Board × List Int)
  | b, [] => some (b, [])
  | b, q :: qs =>
    match f b q.1 q.2 with
    | none => none
    | some (b1, l1) =>
      match revealSeq f b1 qs with
      | none => none
      | some (b2, l2) => some (b2, l1 ++ l2)

/-- Embeds the recursive `reveal` (sweeper.cpp:268-290) with explicit
fuel, returning the updated board together with the list of flattened
indices the call accessed (`board.cells[y * board.width + x]` at entry of
every recursive call). -/
def revealGoA : Nat → Board → Int → Int → Option (Board × List Int)
  | 0, _, _, _ => none
  | fuel + 1, b, x, y =>
    let i := idxB b x y
    let cell := getI b i
    if cell.is_revealed then some (b, [i])
    else
      let b1 := setI b i { cell with is_flagged := false, is_revealed := true }
      if cell.is_mine then some (b1, [i])
      else if 0 < cell.neighbor_mines then some (b1, [i])
      else
        match revealSeq (revealGoA fuel) b1 (neighbours b1 x y) with
        | none => none
        | some (b2, l2) => some (b2, i :: l2)

/-- Fuel that always suffices for `revealGoA` (each recursive step marks a
previously unrevealed cell, and there are at most `cells.length` of them). -/
def revealFuel (b : Board) : Nat := b.cells.length + 1

/-- The total wrapper for `reveal`: the C++ recursion, which the fuel
theorems show never actually exhausts this much fuel. -/
def reveal (b : Board) (x y : Int) : Board :=
  match revealGoA (revealFuel b) b x y with
  | some r => r.1
  | none => b

/-- The flag-counting lambda of the chord branch (sweeper.cpp:403-411). -/
def flagsAround (b : Board) (x y : Int) : Int :=
  (neighbours b x y).foldl
    (fun n q => if (getI b (idxB b q.1 q.2)).is_flagged then n + 1 else n) 0

/-- The chord reveal pass (sweeper.cpp:418-426): for each neighbour, skip
mines, otherwise run the recursive reveal.  Also logs the index read by
the `is_mine` test. -/
def chordGo : Board → List (Int × Int) → Option (Board × List Int)
  | b, [] => some (b, [])
  | b, q :: qs =>
    let i := idxB b q.1 q.2
    if (getI b i).is_mine then
      match chordGo b qs with
      | none => none
      | some r => some (r.1, i :: r.2)
    else
      match revealGoA (revealFuel b) b q.1 q.2 with
      | none => none
      | some (b1, l1) =>
        match chordGo b1 qs with
        | none => none
        | some r => some (r.1, i :: (l1 ++ r.2))

/-- Embeds the whole `Reveal` command handler (sweeper.cpp:393-436):
possible lazy mine placement, then either a chord attempt on a revealed
numbered cell, a plain flood-fill reveal with the loss check, or nothing.
The boolean records whether "Incorrect number of flags" was reported. -/
def applyReveal (stream : Nat → Nat) (fuel : Nat) (b : Board) (x y : Int) :
    Option (Board × Bool) :=
  match (if b.time = 1 then init_board stream fuel b x y else some b) with
  | none => none
  | some b1 =>
    let i := idxB b1 x y
    let cell := getI b1 i
    if cell.is_revealed ∧ 0 < cell.neighbor_mines then
      if flagsAround b1 x y ≠ cell.neighbor_mines then some (b1, true)
      else
        match chordGo b1 (neighbours b1 x y) with
        | none => none
        | some r => some (r.1, false)
    else if cell.is_revealed then some (b1, false)
    else
      match revealGoA (revealFuel b1) b1 x y with
      | none => none
      | some r =>
        let b2 := r.1
        some (if (getI b2 i).is_mine then { b2 with game_over := true } else b2, false)

/-- Embeds the `Flag` command handler (sweeper.cpp:438-446). -/
def toggle_flag (b : Board) (x y : Int) : Board :=
  let i := idxB b x y
  let c := getI b i
  if c.is_revealed then b else setI b i { c with is_flagged := !c.is_flagged }

/-- The two counters computed by the single pass of `check_board`
(sweeper.cpp:294-309): correctly flagged mines, and unflagged unrevealed
cells. -/
def countsCB (b : Board) : Int × Int :=
  b.cells.foldl
    (fun acc c =>
      if c.is_flagged then (if c.is_mine then (acc.1 + 1, acc.2) else acc)
      else if c.is_revealed then acc else (acc.1, acc.2 + 1))
    ((0 : Int), (0 : Int))

/-- Embeds `check_board` (sweeper.cpp:292-322): on the count equality,
force-flag every mine and end the game. -/
def check_board (b : Board) : Board :=
  let p := countsCB b
  if p.1 + p.2 = b.num_mines then
    { b with
      cells := b.cells.map fun c => if c.is_mine then { c with is_flagged := true } else c,
      game_over := true }
  else b

/-- Embeds the `New` command handler (sweeper.cpp:378-391). -/
def newGame (b : Board) (x y : Int) : Board :=
  let w := if 0 < x ∧ 0 < y then x else b.width
  let h := if 0 < x ∧ 0 < y then y else b.height
  { b with width := w, height := h,
           cells := List.replicate (w * h).toNat default,
           game_over := false, time := 0 }

/-- A fresh board as built by `main` before the loop (sweeper.cpp:329-361). -/
def freshBoard (w h m : Int) : Board :=
  { width := w, height := h, num_mines := m,
    cells := List.replicate (w * h).toNat default,
    game_over := false, time := 0 }

/-- The commands the loop can feed to the engine (`Quit` merely stops the
loop and is represented by the command list ending). -/
inductive Command where
  | creveal (x y : Int)
  | cflag (x y : Int)
  | cnew (x y : Int)
deriving Repr, DecidableEq

/-- One engine command dispatch (the `switch` at sweeper.cpp:376-450). -/
def applyCmd (stream : Nat → Nat) (fuel : Nat) (b : Board) :
    Command → Option Board
  | Command.creveal x y =>
    match applyReveal stream fuel b x y with
    | none => none
    | some r => some r.1
  | Command.cflag x y => some (toggle_flag b x y)
  | Command.cnew x y => some (newGame b x y)

/-- The head of each loop iteration (sweeper.cpp:365-366): increment the
turn counter, then run the win check. -/
def tick (b : Board) : Board := check_board { b with time := b.time + 1 }

/-- Whether this command triggers the lazy mine placement at this state
(sweeper.cpp:395). -/
def usesInit (b : Board) : Command → Bool
  | Command.creveal _ _ => b.time = 1
  | _ => false

/-- The main loop (sweeper.cpp:363-451) as the list of board states it
passes through: each iteration ticks, stops when the game is over (or the
input ends), otherwise applies the next command.  `streams k` is the
position stream of the `k`-th game's random engine. -/
def runTrace (fuel : Nat) (streams : Nat → Nat → Nat) :
    Nat → List Command → Board → Option (List Board)
  | k, cmds, b =>
    let t := tick b
    if t.game_over then some [t]
    else
      match cmds with
      | [] => some [t]
      | c :: cs =>
        match applyCmd (streams k) fuel t c with
        | none => none
        | some b' =>
          match runTrace fuel streams (if usesInit t c then k + 1 else k) cs b' with
          | none => none
          | some tr => some (t :: b' :: tr)

/-- Concrete cell builder used by the concrete boards below. -/
def cc (m r f : Bool) (n : Int) : Cell :=
  { is_mine := m, is_revealed := r, is_flagged := f, neighbor_mines := n }

/-- Number of cells not yet revealed; the quantity the flood fill strictly
decreases, which bounds its recursion depth. -/
def unrev (b : Board) : Nat := b.cells.countP fun c => !c.is_revealed

/-- How a single cell can evolve across a `reveal` call: untouched, or
(if previously unrevealed) marked revealed with its flag cleared. -/
def cellStep (c c' : Cell) : Prop :=
  c' = c ∨ (c.is_revealed = false ∧ c' = { c with is_revealed := true, is_flagged := false })

/-- How a whole board can evolve across a `reveal` call: dimensions, mine
count, game flag, turn counter and cell count unchanged, the unrevealed
count not increased, and each cell a `cellStep`. -/
def boardStep (b b' : Board) : Prop :=
  b'.width = b.width ∧ b'.height = b.height ∧ b'.num_mines = b.num_mines ∧
  b'.game_over = b.game_over ∧ b'.time = b.time ∧
  b'.cells.length = b.cells.length ∧ unrev b' ≤ unrev b ∧
  ∀ i : Int, cellStep (getI b i) (getI b' i)

/-- `RevPath b s t`: there is a chain of neighbour steps from `s` to `t`
whose cells are all unrevealed in `b` and whose cells before the last are
non-mines with non-positive stored neighbour count.  This is exactly the
set of cells the recursive `reveal` starting at `s` marks. -/
inductive RevPath (b : Board) (s : Int × Int) : Int × Int → Prop
  | nil : (getI b (idxB b s.1 s.2)).is_revealed = false → RevPath b s s
  | cons {q r : Int × Int} :
      RevPath b s q →
      (getI b (idxB b q.1 q.2)).is_mine = false →
      (getI b (idxB b q.1 q.2)).neighbor_mines ≤ 0 →
      r ∈ neighbours b q.1 q.2 →
      (getI b (idxB b r.1 r.2)).is_revealed = false →
      RevPath b s r

/-- `ZeroReach b s t`: `t` is in the connected region of zero-count
cells containing `s`, or on its immediate border.  This follows the
wording of the specification's flood-fill property (interior cells have
`neighborMineCount = 0`; revealed status is not consulted). -/
inductive ZeroReach (b : Board) (s : Int × Int) : Int × Int → Prop
  | nil : ZeroReach b s s
  | cons {q r : Int × Int} :
      ZeroReach b s q →
      (getI b (idxB b q.1 q.2)).is_mine = false →
      (getI b (idxB b q.1 q.2)).neighbor_mines = 0 →
      r ∈ neighbours b q.1 q.2 →
      ZeroReach b s r

/-- The number of mines among the grid neighbours of `(x, y)`. -/
def mineNbrCount (b : Board) (x y : Int) : Int :=
  ((neighbours b x y).countP fun q => (getI b (idxB b q.1 q.2)).is_mine : Nat)

/-- The board's stored neighbour counts agree with the actual mine layout
(this holds for ordinary play where no cell touches eight mines). -/
def consistent (b : Board) : Prop :=
  ∀ u v : Int, inb b u v → (getI b (idxB b u v)).is_mine = false →
    (getI b (idxB b u v)).neighbor_mines = mineNbrCount b u v

/-- No cell outside the mines is simultaneously revealed and flagged. -/
def noRevFlag (b : Board) : Prop :=
  ∀ i : Int, (getI b i).is_mine = false →
    ¬((getI b i).is_revealed = true ∧ (getI b i).is_flagged = true)

/-- 1x5 board, no mines, all counts zero, middle cell already revealed:
an already-revealed cell inside a zero region blocks the flood fill. -/
def bBlocked : Board :=
  { width := 5, height := 1, num_mines := 0,
    cells := [cc false false false 0, cc false false false 0,
              cc false true false 0, cc false false false 0,
              cc false false false 0],
    game_over := false, time := 2 }

/-- 2x2 board, mine at (1,1), cell (0,0) revealed, a (wrong) flag on the
non-mine cell (1,0): sets up a chord whose flag count matches. -/
def bChord : Board :=
  { width := 2, height := 2, num_mines := 1,
    cells := [cc false true false 1, cc false false true 1,
              cc false false false 1, cc true false false 0],
    game_over := false, time := 5 }

/-- Same 2x2 position without the flag: sets up a rejected chord. -/
def bChordRej : Board :=
  { width := 2, height := 2, num_mines := 1,
    cells := [cc false true false 1, cc false false false 1,
              cc false false false 1, cc true false false 0],
    game_over := false, time := 5 }

/-- The command sequence of the win-after-loss scenario on a 2x2 board
with one mine at flattened position 3: reveal the two numbered cells,
then reveal the mine itself while (0,1) is still hidden. -/
def cexCmds : List Command :=
  [Command.creveal 0 0, Command.creveal 1 0, Command.creveal 1 1]

/-! ### Basic access lemmas -/

theorem getI_setI_self (b : Board) (i : Int) (c : Cell) (hi : 0 ≤ i)
    (hlt : i.toNat < b.cells.length) : getI (setI b i c) i = c := by
  simp only [getI, setI, if_pos hi, List.getD]
  rw [List.get?_eq_getElem?, List.getElem?_set_self hlt]
  rfl

theorem getI_setI_ne (b : Board) (i j : Int) (c : Cell) (hne : i ≠ j) :
    getI (setI b i c) j = getI b j := by
  by_cases hi : 0 ≤ i
  · by_cases hj : 0 ≤ j
    · have htn : i.toNat ≠ j.toNat := by omega
      simp only [getI, setI, if_pos hi, if_pos hj, List.getD, List.get?_eq_getElem?,
        List.getElem?_set_ne htn]
    · simp only [getI, setI, if_pos hi, if_neg hj]
  · simp only [setI, if_neg hi]

theorem setI_width (b : Board) (i : Int) (c : Cell) : (setI b i c).width = b.width := by
  unfold setI; split <;> rfl

theorem setI_height (b : Board) (i : Int) (c : Cell) : (setI b i c).height = b.height := by
  unfold setI; split <;> rfl

theorem setI_num_mines (b : Board) (i : Int) (c : Cell) :
    (setI b i c).num_mines = b.num_mines := by
  unfold setI; split <;> rfl

theorem setI_game_over (b : Board) (i : Int) (c : Cell) :
    (setI b i c).game_over = b.game_over := by
  unfold setI; split <;> rfl

theorem setI_time (b : Board) (i : Int) (c : Cell) : (setI b i c).time = b.time := by
  unfold setI; split <;> rfl

theorem setI_length (b : Board) (i : Int) (c : Cell) :
    (setI b i c).cells.length = b.cells.length := by
  unfold setI; split <;> simp

/-- In-bounds coordinates have flattened index in `[0, width*height)`. -/
theorem idxB_bounds (b : Board) (x y : Int) (h : inb b x y) :
    0 ≤ idxB b x y ∧ idxB b x y < b.width * b.height := by
  obtain ⟨hx0, hxw, hy0, hyh⟩ := h
  constructor
  · have : 0 ≤ y * b.width := mul_nonneg hy0 (by omega)
    unfold idxB; omega
  · have h1 : y * b.width + x < (y + 1) * b.width := by nlinarith

    have h2 : (y + 1) * b.width ≤ b.height * b.width := by
      have : y + 1 ≤ b.height := by omega
      exact mul_le_mul_of_nonneg_right this (by omega)
    unfold idxB
    nlinarith

/-- Flattened indices are injective on in-bounds coordinates. -/
theorem idxB_inj (b : Board) {x y u v : Int} (h1 : inb b x y) (h2 : inb b u v)
    (heq : idxB b x y = idxB b u v) : x = u ∧ y = v := by
  obtain ⟨hx0, hxw, hy0, hyh⟩ := h1
  obtain ⟨hu0, huw, hv0, hvh⟩ := h2
  unfold idxB at heq
  have hyv : y = v := by
    rcases lt_trichotomy y v with h | h | h
    · exfalso; nlinarith
    · exact h
    · exfalso; nlinarith
  subst hyv
  exact ⟨by omega, rfl⟩

theorem mem_of_ite_nil {α : Type} {c : Prop} [Decidable c] {l : List α} {q : α}
    (h : q ∈ if c then l else []) : c ∧ q ∈ l := by
  split at h
  · exact ⟨by assumption, h⟩
  · cases h

/-- Elements of the neighbour list and the guard they came from. -/
theorem mem_neighbours_cases (b : Board) {x y : Int} {q : Int × Int}
    (hq : q ∈ neighbours b x y) :
    (0 < x ∧ (q = (x - 1, y) ∨ (0 < y ∧ q = (x - 1, y - 1)) ∨
       (y < b.height - 1 ∧ q = (x - 1, y + 1)))) ∨
    (x < b.width - 1 ∧ (q = (x + 1, y) ∨ (0 < y ∧ q = (x + 1, y - 1)) ∨
       (y < b.height - 1 ∧ q = (x + 1, y + 1)))) ∨
    (0 < y ∧ q = (x, y - 1)) ∨ (y < b.height - 1 ∧ q = (x, y + 1)) := by
  unfold neighbours at hq
  rcases List.mem_append.1 hq with h | h
  · rcases List.mem_append.1 h with h | h
    · rcases List.mem_append.1 h with h | h
      · obtain ⟨hc, h⟩ := mem_of_ite_nil h
        rcases List.mem_cons.1 h with h | h
        · exact Or.inl ⟨hc, Or.inl h⟩
        · rcases List.mem_append.1 h with h | h
          · obtain ⟨hc2, h⟩ := mem_of_ite_nil h
            exact Or.inl ⟨hc, Or.inr (Or.inl ⟨hc2, List.mem_singleton.1 h⟩)⟩
          · obtain ⟨hc2, h⟩ := mem_of_ite_nil h
            exact Or.inl ⟨hc, Or.inr (Or.inr ⟨hc2, List.mem_singleton.1 h⟩)⟩
      · obtain ⟨hc, h⟩ := mem_of_ite_nil h
        rcases List.mem_cons.1 h with h | h
        · exact Or.inr (Or.inl ⟨hc, Or.inl h⟩)
        · rcases List.mem_append.1 h with h | h
          · obtain ⟨hc2, h⟩ := mem_of_ite_nil h
            exact Or.inr (Or.inl ⟨hc, Or.inr (Or.inl ⟨hc2, List.mem_singleton.1 h⟩)⟩)
          · obtain ⟨hc2, h⟩ := mem_of_ite_nil h
            exact Or.inr (Or.inl ⟨hc, Or.inr (Or.inr ⟨hc2, List.mem_singleton.1 h⟩)⟩)
    · obtain ⟨hc, h⟩ := mem_of_ite_nil h
      exact Or.inr (Or.inr (Or.inl ⟨hc, List.mem_singleton.1 h⟩))
  · obtain ⟨hc, h⟩ := mem_of_ite_nil h
    exact Or.inr (Or.inr (Or.inr ⟨hc, List.mem_singleton.1 h⟩))

/-- Members of the neighbour list of an in-bounds cell are in bounds. -/
theorem neighbours_inb (b : Board) {x y : Int} (h : inb b x y)
    {q : Int × Int} (hq : q ∈ neighbours b x y) : inb b q.1 q.2 := by
  obtain ⟨hx0, hxw, hy0, hyh⟩ := h
  rcases mem_neighbours_cases b hq with ⟨hc, hs⟩ | ⟨hc, hs⟩ | ⟨hc, hs⟩ | ⟨hc, hs⟩ <;>
    [ rcases hs with hs | ⟨hc2, hs⟩ | ⟨hc2, hs⟩ ;
      rcases hs with hs | ⟨hc2, hs⟩ | ⟨hc2, hs⟩ ;
      skip ; skip ] <;>
    subst hs <;> exact ⟨by omega, by omega, by omega, by omega⟩

/-- `neighbours` only reads the board's dimensions. -/
theorem neighbours_congr {b b' : Board} (hw : b'.width = b.width)
    (hh : b'.height = b.height) (x y : Int) :
    neighbours b' x y = neighbours b x y := by
  unfold neighbours; rw [hw, hh]

/-! ### Cell and board step relations -/

theorem cellStep_refl (c : Cell) : cellStep c c := Or.inl rfl

theorem cellStep_trans {a b c : Cell} (h1 : cellStep a b) (h2 : cellStep b c) :
    cellStep a c := by
  rcases h1 with rfl | ⟨ha, rfl⟩
  · exact h2
  · rcases h2 with rfl | ⟨hb, rfl⟩
    · exact Or.inr ⟨ha, rfl⟩
    · simp at hb

theorem cellStep_mine {c c' : Cell} (h : cellStep c c') : c'.is_mine = c.is_mine := by
  rcases h with rfl | ⟨_, rfl⟩ <;> rfl

theorem cellStep_nm {c c' : Cell} (h : cellStep c c') :
    c'.neighbor_mines = c.neighbor_mines := by
  rcases h with rfl | ⟨_, rfl⟩ <;> rfl

theorem cellStep_rev_mono {c c' : Cell} (h : cellStep c c') (hr : c.is_revealed = true) :
    c'.is_revealed = true := by
  rcases h with rfl | ⟨hc, rfl⟩
  · exact hr
  · rfl

theorem cellStep_flag {c c' : Cell} (h : cellStep c c') (hf : c'.is_flagged = true) :
    c.is_flagged = true := by
  rcases h with rfl | ⟨_, rfl⟩
  · exact hf
  · simp at hf

theorem boardStep_refl (b : Board) : boardStep b b :=
  ⟨rfl, rfl, rfl, rfl, rfl, rfl, le_refl _, fun _ => cellStep_refl _⟩

theorem boardStep_cellStep {b b' : Board} (h : boardStep b b') (i : Int) :
    cellStep (getI b i) (getI b' i) := h.2.2.2.2.2.2.2 i

theorem boardStep_trans {a b c : Board} (h1 : boardStep a b) (h2 : boardStep b c) :
    boardStep a c := by
  obtain ⟨w1, h1h, n1, g1, t1, l1, u1, s1⟩ := h1
  obtain ⟨w2, h2h, n2, g2, t2, l2, u2, s2⟩ := h2
  exact ⟨w2.trans w1, h2h.trans h1h, n2.trans n1, g2.trans g1, t2.trans t1,
    l2.trans l1, u2.trans u1, fun i => cellStep_trans (s1 i) (s2 i)⟩

/-- Setting index `n` changes `countP` by swapping the old element's
contribution for the new one's. -/
theorem countP_set_add {α : Type} (p : α → Bool) (d : α) :
    ∀ (l : List α) (n : Nat), n < l.length → ∀ a : α,
      (l.set n a).countP p + (if p (l.getD n d) then 1 else 0) =
        l.countP p + (if p a then 1 else 0) := by
  intro l
  induction l with
  | nil => intro n hn; simp at hn
  | cons hd tl ih =>
    intro n hn a
    cases n with
    | zero => simp [List.countP_cons, List.getD]; omega
    | succ m =>
      have hm : m < tl.length := by simpa using hn
      have := ih m hm a
      simp only [List.set, List.countP_cons, List.getD_cons_succ]
      omega

theorem setI_cells_pos (b : Board) (i : Int) (c : Cell) (hi : 0 ≤ i) :
    (setI b i c).cells = b.cells.set i.toNat c := by
  simp only [setI, if_pos hi]

theorem setI_cells_neg (b : Board) (i : Int) (c : Cell) (hi : ¬0 ≤ i) :
    (setI b i c).cells = b.cells := by
  simp only [setI, if_neg hi]

theorem getI_congr_cells {b b' : Board} (h : b'.cells = b.cells) (i : Int) :
    getI b' i = getI b i := by
  simp only [getI, h]

theorem unrev_congr_cells {b b' : Board} (h : b'.cells = b.cells) :
    unrev b' = unrev b := by
  simp only [unrev, h]

theorem getI_eq_getD (b : Board) (i : Int) (hi : 0 ≤ i) :
    getI b i = b.cells.getD i.toNat default := by
  simp only [getI, if_pos hi]

/-- Marking an unrevealed cell revealed (clearing its flag) is a board step. -/
theorem boardStep_mark (b : Board) (i : Int)
    (hcell : (getI b i).is_revealed = false) :
    boardStep b (setI b i { getI b i with is_revealed := true, is_flagged := false }) := by
  refine ⟨setI_width _ _ _, setI_height _ _ _, setI_num_mines _ _ _,
    setI_game_over _ _ _, setI_time _ _ _, setI_length _ _ _, ?_, ?_⟩
  · by_cases hi : 0 ≤ i
    · by_cases hlt : i.toNat < b.cells.length
      · have hmk : ({ getI b i with is_revealed := true, is_flagged := false } : Cell) =
            Cell.mk (getI b i).is_mine true false (getI b i).neighbor_mines := rfl
        have h1 := countP_set_add (fun c : Cell => !c.is_revealed) default b.cells i.toNat hlt
          (Cell.mk (getI b i).is_mine true false (getI b i).neighbor_mines)
        rw [← getI_eq_getD b i hi] at h1
        simp only [hcell, Bool.not_false, Bool.not_true, Bool.false_eq_true, if_false,
          eq_self_iff_true, if_true] at h1
        unfold unrev
        rw [setI_cells_pos b i _ hi, hmk]
        omega
      · unfold unrev
        rw [setI_cells_pos b i _ hi, List.set_eq_of_length_le (by omega)]
    · rw [unrev_congr_cells (setI_cells_neg b i _ hi)]
  · intro j
    by_cases hj : i = j
    · subst hj
      by_cases hi : 0 ≤ i
      · by_cases hlt : i.toNat < b.cells.length
        · rw [getI_setI_self b i _ hi hlt]
          exact Or.inr ⟨hcell, rfl⟩
        · have hc : (setI b i
              { getI b i with is_revealed := true, is_flagged := false }).cells = b.cells := by
            rw [setI_cells_pos b i _ hi]
            exact List.set_eq_of_length_le (by omega)
          rw [getI_congr_cells hc]
          exact cellStep_refl _
      · rw [getI_congr_cells (setI_cells_neg b i _ hi)]
        exact cellStep_refl _
    · rw [getI_setI_ne b i j _ hj]
      exact cellStep_refl _

/-- `revealSeq` preserves any transitive board property its argument
preserves. -/
theorem revealSeq_boardStep (f : Board → Int → Int → Option (Board × List Int))
    (hf : ∀ b x y r, f b x y = some r → boardStep b r.1) :
    ∀ (l : List (Int × Int)) (b : Board) (r : Board × List Int),
      revealSeq f b l = some r → boardStep b r.1 := by
  intro l
  induction l with
  | nil =>
    intro b r h
    simp only [revealSeq] at h
    cases h; exact boardStep_refl b
  | cons q qs ih =>
    intro b r h
    simp only [revealSeq] at h
    split at h
    · cases h
    · rename_i b1 l1 hf1
      split at h
      · cases h
      · rename_i b2 l2 hseq
        cases h
        exact boardStep_trans (hf b q.1 q.2 (b1, l1) hf1) (ih b1 (b2, l2) hseq)

/-- The flood fill only performs `cellStep`s: it reveals previously
unrevealed cells (clearing their flags) and touches nothing else. -/
theorem revealGoA_boardStep :
    ∀ (n : Nat) (b : Board) (x y : Int) (r : Board × List Int),
      revealGoA n b x y = some r → boardStep b r.1 := by
  intro n
  induction n with
  | zero => intro b x y r h; cases h
  | succ m ih =>
    intro b x y r h
    simp only [revealGoA] at h
    by_cases hrev : (getI b (idxB b x y)).is_revealed
    · rw [if_pos hrev] at h; cases h; exact boardStep_refl b
    · rw [if_neg hrev] at h
      have hmark := boardStep_mark b (idxB b x y) (by simpa using hrev)
      by_cases hmine : (getI b (idxB b x y)).is_mine
      · rw [if_pos hmine] at h; cases h; exact hmark
      · rw [if_neg hmine] at h
        by_cases hnm : 0 < (getI b (idxB b x y)).neighbor_mines
        · rw [if_pos hnm] at h; cases h; exact hmark
        · rw [if_neg hnm] at h
          split at h
          · cases h
          · rename_i b2 l2 hseq
            cases h
            refine boardStep_trans ?_ (revealSeq_boardStep _ ih _ _ (b2, l2) hseq)
            simpa using hmark

/-! ### Fuel sufficiency: the flood fill terminates -/

theorem inb_congr {b b' : Board} (hw : b'.width = b.width) (hh : b'.height = b.height)
    (x y : Int) : inb b' x y ↔ inb b x y := by
  unfold inb; rw [hw, hh]

/-- Marking an unrevealed in-range cell strictly decreases the number of
unrevealed cells. -/
theorem unrev_mark (b : Board) (i : Int) (hcell : (getI b i).is_revealed = false)
    (hi : 0 ≤ i) (hlt : i.toNat < b.cells.length) :
    unrev (setI b i { getI b i with is_flagged := false, is_revealed := true }) + 1 =
      unrev b := by
  have hmk : ({ getI b i with is_flagged := false, is_revealed := true } : Cell) =
      Cell.mk (getI b i).is_mine true false (getI b i).neighbor_mines := rfl
  have h1 := countP_set_add (fun c : Cell => !c.is_revealed) default b.cells i.toNat hlt
    (Cell.mk (getI b i).is_mine true false (getI b i).neighbor_mines)
  rw [← getI_eq_getD b i hi] at h1
  simp only [hcell, Bool.not_false, Bool.not_true, Bool.false_eq_true, if_false,
    eq_self_iff_true, if_true] at h1
  unfold unrev
  rw [setI_cells_pos b i _ hi, hmk]
  omega

/-- `revealSeq` succeeds on a list of in-bounds coordinates when the fuel
exceeds the number of unrevealed cells. -/
theorem revealSeq_isSome (n : Nat)
    (hsome : ∀ b x y, inb b x y → (b.width * b.height).toNat ≤ b.cells.length →
      unrev b < n → (revealGoA n b x y).isSome) :
    ∀ (l : List (Int × Int)) (b : Board),
      (∀ q ∈ l, inb b q.1 q.2) → (b.width * b.height).toNat ≤ b.cells.length →
      unrev b < n → (revealSeq (revealGoA n) b l).isSome := by
  intro l
  induction l with
  | nil => intro b _ _ _; simp [revealSeq]
  | cons q qs ih =>
    intro b hq hlen hu
    obtain ⟨r1, hr1⟩ := Option.isSome_iff_exists.1
      (hsome b q.1 q.2 (hq q (List.mem_cons_self q qs)) hlen hu)
    obtain ⟨hw, hh, _, _, _, hl, hu1, _⟩ := revealGoA_boardStep n b q.1 q.2 r1 hr1
    have hrec := ih r1.1
      (fun p hp => (inb_congr hw hh p.1 p.2).2 (hq p (List.mem_cons_of_mem q hp)))
      (by rw [hl, hw, hh]; exact hlen) (lt_of_le_of_lt hu1 hu)
    obtain ⟨r2, hr2⟩ := Option.isSome_iff_exists.1 hrec
    simp only [revealSeq, hr1, hr2]
    rfl

/-- The flood fill succeeds whenever the fuel exceeds the number of
unrevealed cells: each recursive level marks a fresh cell, so the
recursion terminates within `cells.length` levels. -/
theorem revealGoA_isSome :
    ∀ (n : Nat) (b : Board) (x y : Int), inb b x y →
      (b.width * b.height).toNat ≤ b.cells.length → unrev b < n →
      (revealGoA n b x y).isSome := by
  intro n
  induction n with
  | zero => intro b x y _ _ hu; omega
  | succ m ih =>
    intro b x y hxy hlen hu
    simp only [revealGoA]
    by_cases hrev : (getI b (idxB b x y)).is_revealed
    · rw [if_pos hrev]; rfl
    · rw [if_neg hrev]
      by_cases hmine : (getI b (idxB b x y)).is_mine
      · rw [if_pos hmine]; rfl
      · rw [if_neg hmine]
        by_cases hnm : 0 < (getI b (idxB b x y)).neighbor_mines
        · rw [if_pos hnm]; rfl
        · rw [if_neg hnm]
          have hidx := idxB_bounds b x y hxy
          have hvalid : (idxB b x y).toNat < b.cells.length := by omega
          have hmark := unrev_mark b (idxB b x y) (by simpa using hrev) hidx.1 hvalid
          have hstep := boardStep_mark b (idxB b x y) (by simpa using hrev)
          obtain ⟨hw, hh, _, _, _, hl, _, _⟩ := hstep
          have hb1 : unrev (setI b (idxB b x y)
              { getI b (idxB b x y) with is_flagged := false, is_revealed := true }) < m := by
            omega
          have hseq := revealSeq_isSome m ih
            (neighbours (setI b (idxB b x y)
              { getI b (idxB b x y) with is_flagged := false, is_revealed := true }) x y)
            (setI b (idxB b x y)
              { getI b (idxB b x y) with is_flagged := false, is_revealed := true })
            (fun p hp => neighbours_inb _ ((inb_congr hw hh x y).2 hxy) hp)
            (by rw [hl, hw, hh]; exact hlen) hb1
          obtain ⟨r2, hr2⟩ := Option.isSome_iff_exists.1 hseq
          rw [hr2]
          rfl

/-! ### Soundness of the flood fill: only `RevPath`-reachable cells get revealed -/

theorem idxB_congr {b b' : Board} (hw : b'.width = b.width) (x y : Int) :
    idxB b' x y = idxB b x y := by
  unfold idxB; rw [hw]

/-- The endpoint of a `RevPath` is unrevealed. -/
theorem RevPath_endpoint_unrev {b : Board} {s t : Int × Int} (h : RevPath b s t) :
    (getI b (idxB b t.1 t.2)).is_revealed = false := by
  cases h with
  | nil h => exact h
  | cons _ _ _ _ h => exact h

/-- `RevPath`s from an in-bounds start stay in bounds. -/
theorem RevPath_inb {b : Board} {s t : Int × Int} (hs : inb b s.1 s.2)
    (h : RevPath b s t) : inb b t.1 t.2 := by
  induction h with
  | nil _ => exact hs
  | cons _ _ _ hmem _ ih => exact neighbours_inb b ih hmem

/-- A `RevPath` in the later board of a `boardStep` is a `RevPath` in the
earlier board: revealing only removes candidate paths. -/
theorem RevPath_of_boardStep {b b' : Board} (h : boardStep b b') {s t : Int × Int}
    (hp : RevPath b' s t) : RevPath b s t := by
  obtain ⟨hw, hh, -, -, -, -, -, hcells⟩ := h
  induction hp with
  | nil hu =>
    refine RevPath.nil ?_
    rw [idxB_congr hw] at hu
    rcases hcells (idxB b s.1 s.2) with heq | ⟨hr, heq⟩
    · rw [← heq]; exact hu
    · exact hr
  | cons hpred hm hnm hmem hu ih =>
    rename_i q r
    rw [idxB_congr hw] at hm hnm
    rw [idxB_congr hw] at hu
    rw [neighbours_congr hw hh] at hmem
    refine RevPath.cons ih ?_ ?_ hmem ?_
    · rcases hcells (idxB b q.1 q.2) with heq | ⟨_, heq⟩ <;>
        · rw [heq] at hm; simpa using hm
    · rcases hcells (idxB b q.1 q.2) with heq | ⟨_, heq⟩ <;>
        · rw [heq] at hnm; simpa using hnm
    · rcases hcells (idxB b r.1 r.2) with heq | ⟨hr, heq⟩
      · rw [← heq]; exact hu
      · exact hr

/-- A `RevPath` starting from a neighbour of a zero, non-mine, unrevealed
cell extends to a `RevPath` from that cell. -/
theorem RevPath_prepend {b : Board} {x y : Int} {q t : Int × Int}
    (hmem : q ∈ neighbours b x y)
    (hu : (getI b (idxB b x y)).is_revealed = false)
    (hm : (getI b (idxB b x y)).is_mine = false)
    (hnm : (getI b (idxB b x y)).neighbor_mines ≤ 0)
    (hp : RevPath b q t) : RevPath b (x, y) t := by
  induction hp with
  | nil hq => exact RevPath.cons (RevPath.nil hu) hm hnm hmem hq
  | cons _ hm2 hnm2 hmem2 hu2 ih => exact RevPath.cons ih hm2 hnm2 hmem2 hu2

/-- Soundness of one `revealSeq` pass: a cell revealed afterwards was
revealed before or is `RevPath`-reachable from some coordinate of the list. -/
theorem revealSeq_sound (n : Nat)
    (hsnd : ∀ (b : Board) (x y : Int) (r : Board × List Int),
      revealGoA n b x y = some r → inb b x y →
      ∀ t : Int × Int, inb b t.1 t.2 →
        (getI r.1 (idxB b t.1 t.2)).is_revealed = true →
        (getI b (idxB b t.1 t.2)).is_revealed = true ∨ RevPath b (x, y) t) :
    ∀ (l : List (Int × Int)) (b : Board), (∀ q ∈ l, inb b q.1 q.2) →
      ∀ r : Board × List Int, revealSeq (revealGoA n) b l = some r →
      ∀ t : Int × Int, inb b t.1 t.2 →
        (getI r.1 (idxB b t.1 t.2)).is_revealed = true →
        (getI b (idxB b t.1 t.2)).is_revealed = true ∨ ∃ p ∈ l, RevPath b p t := by
  intro l
  induction l with
  | nil =>
    intro b _ r h t _ hrev
    simp only [revealSeq] at h
    cases h
    exact Or.inl hrev
  | cons q qs ih =>
    intro b hql r h t hint hrev
    simp only [revealSeq] at h
    split at h
    · cases h
    · rename_i b1 l1 hf1
      split at h
      · cases h
      · rename_i b2 l2 hseq
        cases h
        have hstep1 := revealGoA_boardStep n b q.1 q.2 (b1, l1) hf1
        have hw := hstep1.1
        have hh := hstep1.2.1
        have hint1 : inb b1 t.1 t.2 := (inb_congr hw hh t.1 t.2).2 hint
        have hrev1 : (getI b2 (idxB b1 t.1 t.2)).is_revealed = true := by
          rw [idxB_congr hw]; exact hrev
        have := ih b1
          (fun p hp => (inb_congr hw hh p.1 p.2).2 (hql p (List.mem_cons_of_mem q hp)))
          (b2, l2) hseq t hint1 hrev1
        rcases this with hb1 | ⟨p, hp, hpath⟩
        · rw [idxB_congr hw] at hb1
          rcases hsnd b q.1 q.2 (b1, l1) hf1 (hql q (List.mem_cons_self q qs)) t hint hb1 with
            hb | hpath
          · exact Or.inl hb
          · exact Or.inr ⟨q, List.mem_cons_self q qs, hpath⟩
        · exact Or.inr ⟨p, List.mem_cons_of_mem q hp,
            RevPath_of_boardStep hstep1 hpath⟩

/-- Soundness of the flood fill: every cell it reveals lies on a chain of
unrevealed zero-count cells starting at the argument. -/
theorem revealGoA_sound :
    ∀ (n : Nat) (b : Board) (x y : Int) (r : Board × List Int),
      revealGoA n b x y = some r → inb b x y →
      ∀ t : Int × Int, inb b t.1 t.2 →
        (getI r.1 (idxB b t.1 t.2)).is_revealed = true →
        (getI b (idxB b t.1 t.2)).is_revealed = true ∨ RevPath b (x, y) t := by
  intro n
  induction n with
  | zero => intro b x y r h; cases h
  | succ m ih =>
    intro b x y r h hxy t hint hrev
    simp only [revealGoA] at h
    by_cases hrv : (getI b (idxB b x y)).is_revealed
    · rw [if_pos hrv] at h; cases h; exact Or.inl hrev
    · rw [if_neg hrv] at h
      have hxyf : (getI b (idxB b x y)).is_revealed = false := by simpa using hrv
      by_cases hmine : (getI b (idxB b x y)).is_mine
      · rw [if_pos hmine] at h
        cases h
        by_cases hidx : idxB b x y = idxB b t.1 t.2
        · obtain ⟨hx, hy⟩ := idxB_inj b hxy hint hidx
          refine Or.inr ?_
          have : t = (x, y) := by
            cases t; simp at hx hy ⊢; exact ⟨hx.symm, hy.symm⟩
          subst this
          exact RevPath.nil hxyf
        · rw [getI_setI_ne b _ _ _ hidx] at hrev
          exact Or.inl hrev
      · rw [if_neg hmine] at h
        by_cases hnm : 0 < (getI b (idxB b x y)).neighbor_mines
        · rw [if_pos hnm] at h
          cases h
          by_cases hidx : idxB b x y = idxB b t.1 t.2
          · obtain ⟨hx, hy⟩ := idxB_inj b hxy hint hidx
            have : t = (x, y) := by
              cases t; simp at hx hy ⊢; exact ⟨hx.symm, hy.symm⟩
            subst this
            exact Or.inr (RevPath.nil hxyf)
          · rw [getI_setI_ne b _ _ _ hidx] at hrev
            exact Or.inl hrev
        · rw [if_neg hnm] at h
          split at h
          · cases h
          · rename_i b2 l2 hseq
            cases h
            have hmark := boardStep_mark b (idxB b x y) hxyf
            have hmark' : boardStep b (setI b (idxB b x y)
                { getI b (idxB b x y) with is_flagged := false, is_revealed := true }) := by
              simpa using hmark
            have hw := hmark'.1
            have hh := hmark'.2.1
            have hint1 := (inb_congr hw hh t.1 t.2).2 hint
            have hxy1 := (inb_congr hw hh x y).2 hxy
            have hrev1 : (getI b2 (idxB (setI b (idxB b x y)
                { getI b (idxB b x y) with is_flagged := false, is_revealed := true })
                t.1 t.2)).is_revealed = true := by
              rw [idxB_congr hw]; exact hrev
            have hsound := revealSeq_sound m ih _ _
              (fun p hp => neighbours_inb _ hxy1 hp) (b2, l2) hseq t hint1 hrev1
            rcases hsound with hb1 | ⟨p, hp, hpath⟩
            · rw [idxB_congr hw] at hb1
              by_cases hidx : idxB b x y = idxB b t.1 t.2
              · obtain ⟨hx, hy⟩ := idxB_inj b hxy hint hidx
                have : t = (x, y) := by
                  cases t; simp at hx hy ⊢; exact ⟨hx.symm, hy.symm⟩
                subst this
                exact Or.inr (RevPath.nil hxyf)
              · rw [getI_setI_ne b _ _ _ hidx] at hb1
                exact Or.inl hb1
            · have hpath' := RevPath_of_boardStep hmark' hpath
              rw [neighbours_congr hw hh] at hp
              exact Or.inr (RevPath_prepend hp hxyf (by simpa using hmine)
                (by omega) hpath')

/-! ### Completeness of the flood fill -/

/-- A successful flood-fill call leaves its target cell revealed. -/
theorem revealGoA_marks :
    ∀ (n : Nat) (b : Board) (x y : Int) (r : Board × List Int),
      revealGoA n b x y = some r → inb b x y →
      (b.width * b.height).toNat ≤ b.cells.length →
      (getI r.1 (idxB b x y)).is_revealed = true := by
  intro n
  induction n with
  | zero => intro b x y r h; cases h
  | succ m _ =>
    intro b x y r h hxy hlen
    have hidx := idxB_bounds b x y hxy
    have hvalid : (idxB b x y).toNat < b.cells.length := by omega
    simp only [revealGoA] at h
    by_cases hrv : (getI b (idxB b x y)).is_revealed
    · rw [if_pos hrv] at h; cases h; exact hrv
    · rw [if_neg hrv] at h
      have hset : (getI (setI b (idxB b x y)
          { getI b (idxB b x y) with is_flagged := false, is_revealed := true })
          (idxB b x y)).is_revealed = true := by
        rw [getI_setI_self b _ _ hidx.1 hvalid]
      by_cases hmine : (getI b (idxB b x y)).is_mine
      · rw [if_pos hmine] at h; cases h; exact hset
      · rw [if_neg hmine] at h
        by_cases hnm : 0 < (getI b (idxB b x y)).neighbor_mines
        · rw [if_pos hnm] at h; cases h; exact hset
        · rw [if_neg hnm] at h
          split at h
          · cases h
          · rename_i b2 l2 hseq
            cases h
            have hstep := revealSeq_boardStep _ (revealGoA_boardStep m) _ _ (b2, l2) hseq
            exact cellStep_rev_mono (boardStep_cellStep hstep (idxB b x y)) hset

/-- After a successful `revealSeq` pass every listed in-bounds coordinate
is revealed. -/
theorem revealSeq_marks (n : Nat) :
    ∀ (l : List (Int × Int)) (b : Board), (∀ q ∈ l, inb b q.1 q.2) →
      (b.width * b.height).toNat ≤ b.cells.length →
      ∀ r : Board × List Int, revealSeq (revealGoA n) b l = some r →
      ∀ q ∈ l, (getI r.1 (idxB b q.1 q.2)).is_revealed = true := by
  intro l
  induction l with
  | nil => intro b _ _ r _ q hq; cases hq
  | cons p ps ih =>
    intro b hql hlen r h q hq
    simp only [revealSeq] at h
    split at h
    · cases h
    · rename_i b1 l1 hf1
      split at h
      · cases h
      · rename_i b2 l2 hseq
        cases h
        have hstep1 := revealGoA_boardStep n b p.1 p.2 (b1, l1) hf1
        have hw := hstep1.1
        have hh := hstep1.2.1
        have hl := hstep1.2.2.2.2.2.1
        rcases List.mem_cons.1 hq with rfl | hq'
        · have hmk := revealGoA_marks n b q.1 q.2 (b1, l1) hf1
            (hql q (List.mem_cons_self q ps)) hlen
          have hstep2 := revealSeq_boardStep _ (revealGoA_boardStep n) _ _ (b2, l2) hseq
          exact cellStep_rev_mono (boardStep_cellStep hstep2 (idxB b q.1 q.2)) hmk
        · have := ih b1
            (fun p2 hp2 => (inb_congr hw hh p2.1 p2.2).2 (hql p2 (List.mem_cons_of_mem p hp2)))
            (by rw [hl, hw, hh]; exact hlen) (b2, l2) hseq q hq'
          rw [idxB_congr hw] at this
          exact this

/-- Closure for one `revealSeq` pass, given closure for each single call. -/
theorem revealSeq_closure (n : Nat)
    (hclos : ∀ (b : Board) (x y : Int) (r : Board × List Int),
      revealGoA n b x y = some r → inb b x y →
      (b.width * b.height).toNat ≤ b.cells.length →
      ∀ t : Int × Int, inb b t.1 t.2 →
        (getI b (idxB b t.1 t.2)).is_revealed = false →
        (getI r.1 (idxB b t.1 t.2)).is_revealed = true →
        (getI b (idxB b t.1 t.2)).is_mine = false →
        (getI b (idxB b t.1 t.2)).neighbor_mines ≤ 0 →
        ∀ q ∈ neighbours b t.1 t.2, (getI r.1 (idxB b q.1 q.2)).is_revealed = true) :
    ∀ (l : List (Int × Int)) (b : Board), (∀ p ∈ l, inb b p.1 p.2) →
      (b.width * b.height).toNat ≤ b.cells.length →
      ∀ r : Board × List Int, revealSeq (revealGoA n) b l = some r →
      ∀ t : Int × Int, inb b t.1 t.2 →
        (getI b (idxB b t.1 t.2)).is_revealed = false →
        (getI r.1 (idxB b t.1 t.2)).is_revealed = true →
        (getI b (idxB b t.1 t.2)).is_mine = false →
        (getI b (idxB b t.1 t.2)).neighbor_mines ≤ 0 →
        ∀ q ∈ neighbours b t.1 t.2, (getI r.1 (idxB b q.1 q.2)).is_revealed = true := by
  intro l
  induction l with
  | nil =>
    intro b _ _ r h t _ hbf haf
    simp only [revealSeq] at h
    cases h
    intro _ _ _ _
    rw [hbf] at haf; cases haf
  | cons p ps ih =>
    intro b hpl hlen r h t hint hbf haf hmt hnmt q hq
    simp only [revealSeq] at h
    split at h
    · cases h
    · rename_i b1 l1 hf1
      split at h
      · cases h
      · rename_i b2 l2 hseq
        cases h
        have hstep1 := revealGoA_boardStep n b p.1 p.2 (b1, l1) hf1
        have hw := hstep1.1
        have hh := hstep1.2.1
        have hl := hstep1.2.2.2.2.2.1
        have hstep2 := revealSeq_boardStep _ (revealGoA_boardStep n) _ _ (b2, l2) hseq
        by_cases hb1 : (getI b1 (idxB b t.1 t.2)).is_revealed = true
        · have hthis := hclos b p.1 p.2 (b1, l1) hf1 (hpl p (List.mem_cons_self p ps)) hlen
            t hint hbf hb1 hmt hnmt q hq
          exact cellStep_rev_mono (boardStep_cellStep hstep2 (idxB b q.1 q.2)) hthis
        · have hb1f : (getI b1 (idxB b t.1 t.2)).is_revealed = false := by
            simpa using hb1
          have hmine1 : (getI b1 (idxB b t.1 t.2)).is_mine = false := by
            rw [cellStep_mine (boardStep_cellStep hstep1 (idxB b t.1 t.2))]; exact hmt
          have hnm1 : (getI b1 (idxB b t.1 t.2)).neighbor_mines ≤ 0 := by
            rw [cellStep_nm (boardStep_cellStep hstep1 (idxB b t.1 t.2))]; exact hnmt
          have := ih b1
            (fun p2 hp2 => (inb_congr hw hh p2.1 p2.2).2 (hpl p2 (List.mem_cons_of_mem p hp2)))
            (by rw [hl, hw, hh]; exact hlen) (b2, l2) hseq t
            ((inb_congr hw hh t.1 t.2).2 hint)
            (by rw [idxB_congr hw]; exact hb1f)
            (by rw [idxB_congr hw]; exact haf)
            (by rw [idxB_congr hw]; exact hmine1)
            (by rw [idxB_congr hw]; exact hnm1) q
            (by rw [neighbours_congr hw hh]; exact hq)
          rw [idxB_congr hw] at this
          exact this

/-- Closure of the flood fill: if it newly reveals a zero-count non-mine
cell, it also reveals all of that cell's neighbours. -/
theorem revealGoA_closure :
    ∀ (n : Nat) (b : Board) (x y : Int) (r : Board × List Int),
      revealGoA n b x y = some r → inb b x y →
      (b.width * b.height).toNat ≤ b.cells.length →
      ∀ t : Int × Int, inb b t.1 t.2 →
        (getI b (idxB b t.1 t.2)).is_revealed = false →
        (getI r.1 (idxB b t.1 t.2)).is_revealed = true →
        (getI b (idxB b t.1 t.2)).is_mine = false →
        (getI b (idxB b t.1 t.2)).neighbor_mines ≤ 0 →
        ∀ q ∈ neighbours b t.1 t.2, (getI r.1 (idxB b q.1 q.2)).is_revealed = true := by
  intro n
  induction n with
  | zero => intro b x y r h; cases h
  | succ m ih =>
    intro b x y r h hxy hlen t hint hbf haf hmt hnmt q hq
    simp only [revealGoA] at h
    by_cases hrv : (getI b (idxB b x y)).is_revealed
    · rw [if_pos hrv] at h; cases h; rw [hbf] at haf; cases haf
    · rw [if_neg hrv] at h
      have hxyf : (getI b (idxB b x y)).is_revealed = false := by simpa using hrv
      by_cases hmine : (getI b (idxB b x y)).is_mine
      · rw [if_pos hmine] at h
        cases h
        by_cases hidx : idxB b x y = idxB b t.1 t.2
        · obtain ⟨hx, hy⟩ := idxB_inj b hxy hint hidx
          rw [← hidx] at hmt
          rw [hmine] at hmt
          cases hmt
        · rw [getI_setI_ne b _ _ _ hidx] at haf
          rw [hbf] at haf; cases haf
      · rw [if_neg hmine] at h
        by_cases hnm : 0 < (getI b (idxB b x y)).neighbor_mines
        · rw [if_pos hnm] at h
          cases h
          by_cases hidx : idxB b x y = idxB b t.1 t.2
          · rw [← hidx] at hnmt; omega
          · rw [getI_setI_ne b _ _ _ hidx] at haf
            rw [hbf] at haf; cases haf
        · rw [if_neg hnm] at h
          split at h
          · cases h
          · rename_i b2 l2 hseq
            cases h
            have hmark : boardStep b (setI b (idxB b x y)
                { getI b (idxB b x y) with is_flagged := false, is_revealed := true }) := by
              simpa using boardStep_mark b (idxB b x y) hxyf
            have hw := hmark.1
            have hh := hmark.2.1
            have hl := hmark.2.2.2.2.2.1
            have hxy1 := (inb_congr hw hh x y).2 hxy
            have hlen1 : ((setI b (idxB b x y)
                { getI b (idxB b x y) with is_flagged := false, is_revealed := true }).width *
                (setI b (idxB b x y)
                { getI b (idxB b x y) with is_flagged := false, is_revealed := true }).height).toNat ≤
                (setI b (idxB b x y)
                { getI b (idxB b x y) with is_flagged := false, is_revealed := true }).cells.length := by
              rw [hl, hw, hh]; exact hlen
            by_cases hidx : idxB b x y = idxB b t.1 t.2
            · obtain ⟨hx, hy⟩ := idxB_inj b hxy hint hidx
              have ht : t = (x, y) := by
                cases t; simp at hx hy ⊢; exact ⟨hx.symm, hy.symm⟩
              subst ht
              have := revealSeq_marks m _ _
                (fun p hp => neighbours_inb _ hxy1 hp) hlen1 (b2, l2) hseq q
                (by rw [neighbours_congr hw hh]; exact hq)
              rw [idxB_congr hw] at this
              exact this
            · have hbf1 : (getI (setI b (idxB b x y)
                  { getI b (idxB b x y) with is_flagged := false, is_revealed := true })
                  (idxB b t.1 t.2)).is_revealed = false := by
                rw [getI_setI_ne b _ _ _ hidx]; exact hbf
              have hmt1 : (getI (setI b (idxB b x y)
                  { getI b (idxB b x y) with is_flagged := false, is_revealed := true })
                  (idxB b t.1 t.2)).is_mine = false := by
                rw [getI_setI_ne b _ _ _ hidx]; exact hmt
              have hnmt1 : (getI (setI b (idxB b x y)
                  { getI b (idxB b x y) with is_flagged := false, is_revealed := true })
                  (idxB b t.1 t.2)).neighbor_mines ≤ 0 := by
                rw [getI_setI_ne b _ _ _ hidx]; exact hnmt
              have hseqclos := revealSeq_closure m ih _ _
                (fun p hp => neighbours_inb _ hxy1 hp) hlen1 (b2, l2) hseq t
                ((inb_congr hw hh t.1 t.2).2 hint)
                (by rw [idxB_congr hw]; exact hbf1)
                (by rw [idxB_congr hw]; exact haf)
                (by rw [idxB_congr hw]; exact hmt1)
                (by rw [idxB_congr hw]; exact hnmt1) q
                (by rw [neighbours_congr hw hh]; exact hq)
              rw [idxB_congr hw] at hseqclos
              exact hseqclos

/-- Every `RevPath`-reachable cell is revealed by a successful flood fill. -/
theorem revealGoA_complete (n : Nat) (b : Board) (x y : Int) (r : Board × List Int)
    (h : revealGoA n b x y = some r) (hxy : inb b x y)
    (hlen : (b.width * b.height).toNat ≤ b.cells.length) :
    ∀ t : Int × Int, RevPath b (x, y) t →
      (getI r.1 (idxB b t.1 t.2)).is_revealed = true := by
  intro t hpath
  induction hpath with
  | nil _ => exact revealGoA_marks n b x y r h hxy hlen
  | cons hpred hm hnm hmem _ ih =>
    exact revealGoA_closure n b x y r h hxy hlen _
      (RevPath_inb hxy hpred) (RevPath_endpoint_unrev hpred) ih hm hnm _ hmem

/-- The default fuel always suffices. -/
theorem reveal_total (b : Board) (x y : Int) (hxy : inb b x y)
    (hlen : (b.width * b.height).toNat ≤ b.cells.length) :
    ∃ r : Board × List Int, revealGoA (revealFuel b) b x y = some r := by
  refine Option.isSome_iff_exists.1 (revealGoA_isSome (revealFuel b) b x y hxy hlen ?_)
  have := List.countP_le_length (l := b.cells) (fun c : Cell => !c.is_revealed)
  unfold revealFuel unrev
  omega

theorem reveal_eq_of_goA {b : Board} {x y : Int} {r : Board × List Int}
    (h : revealGoA (revealFuel b) b x y = some r) : reveal b x y = r.1 := by
  simp only [reveal, h]

/-- C1 (amended).  For an in-bounds unrevealed zero-count non-mine start,
the flood fill terminates within the `cells.length + 1` fuel bound, and
the cells revealed afterwards are exactly the previously revealed cells
plus the cells reachable from the start through chains of previously
unrevealed cells whose interior cells are non-mines with non-positive
stored count; cells off that set — in particular all previously revealed
cells — are left completely unchanged, so each cell is revealed at most
once. -/
theorem revealCell_flood_exact (b : Board) (x y : Int)
    (hxy : inb b x y)
    (hlen : (b.width * b.height).toNat ≤ b.cells.length)
    (hunrev : (getI b (idxB b x y)).is_revealed = false)
    (hmine : (getI b (idxB b x y)).is_mine = false)
    (hzero : (getI b (idxB b x y)).neighbor_mines = 0) :
    (∃ r : Board × List Int, revealGoA (revealFuel b) b x y = some r) ∧
    (∀ t : Int × Int, inb b t.1 t.2 →
      ((getI (reveal b x y) (idxB b t.1 t.2)).is_revealed = true ↔
        (getI b (idxB b t.1 t.2)).is_revealed = true ∨ RevPath b (x, y) t)) ∧
    (∀ t : Int × Int, inb b t.1 t.2 → ¬RevPath b (x, y) t →
      getI (reveal b x y) (idxB b t.1 t.2) = getI b (idxB b t.1 t.2)) ∧
    (∀ t : Int × Int, (getI b (idxB b t.1 t.2)).is_revealed = true →
      getI (reveal b x y) (idxB b t.1 t.2) = getI b (idxB b t.1 t.2)) := by
  obtain ⟨r, hr⟩ := reveal_total b x y hxy hlen
  have hev := reveal_eq_of_goA hr
  have hchar : ∀ t : Int × Int, inb b t.1 t.2 →
      ((getI (reveal b x y) (idxB b t.1 t.2)).is_revealed = true ↔
        (getI b (idxB b t.1 t.2)).is_revealed = true ∨ RevPath b (x, y) t) := by
    intro t hint
    rw [hev]
    constructor
    · intro haf
      exact revealGoA_sound (revealFuel b) b x y r hr hxy t hint haf
    · rintro (hbf | hpath)
      · exact cellStep_rev_mono
          (boardStep_cellStep (revealGoA_boardStep _ b x y r hr) (idxB b t.1 t.2)) hbf
      · exact revealGoA_complete (revealFuel b) b x y r hr hxy hlen t hpath
  have hcell : ∀ i : Int, cellStep (getI b i) (getI (reveal b x y) i) := by
    intro i
    rw [hev]
    exact boardStep_cellStep (revealGoA_boardStep _ b x y r hr) i
  refine ⟨⟨r, hr⟩, hchar, ?_, ?_⟩
  · intro t hint hnpath
    rcases hcell (idxB b t.1 t.2) with heq | ⟨hcu, hmk⟩
    · exact heq
    · exfalso
      have : (getI (reveal b x y) (idxB b t.1 t.2)).is_revealed = true := by
        rw [hmk]
      rcases (hchar t hint).1 this with hbf | hpath
      · rw [hcu] at hbf; cases hbf
      · exact hnpath hpath
  · intro t hbf
    rcases hcell (idxB b t.1 t.2) with heq | ⟨hcu, _⟩
    · exact heq
    · rw [hbf] at hcu; cases hcu

/-- Witness for C1: on a blank 2x2 board the theorem applies at (0, 0)
and yields termination of the flood fill. -/
theorem revealCell_flood_exact_witness :
    (revealGoA (revealFuel (freshBoard 2 2 0)) (freshBoard 2 2 0) 0 0).isSome = true := by
  obtain ⟨r, hr⟩ := (revealCell_flood_exact (freshBoard 2 2 0) 0 0 (by decide) (by decide)
    (by decide) (by decide) (by decide)).1
  rw [hr]
  rfl

/-- Counterexample to C1 as stated: on `bBlocked` the cell (3, 0) lies in
the connected zero-count region of the start (0, 0) — witnessed by
`ZeroReach` — yet after `reveal` at (0, 0) it is still unrevealed,
because the already-revealed cell (2, 0) stops the recursion. -/
theorem revealCell_flood_cex :
    ZeroReach bBlocked (0, 0) (3, 0) ∧
    (getI bBlocked (idxB bBlocked 0 0)).is_revealed = false ∧
    (getI bBlocked (idxB bBlocked 0 0)).is_mine = false ∧
    (getI bBlocked (idxB bBlocked 0 0)).neighbor_mines = 0 ∧
    (getI (reveal bBlocked 0 0) (idxB bBlocked 3 0)).is_revealed = false := by
  have h1 : ZeroReach bBlocked (0, 0) (1, 0) :=
    ZeroReach.cons ZeroReach.nil (by decide) (by decide) (by decide)
  have h2 : ZeroReach bBlocked (0, 0) (2, 0) :=
    ZeroReach.cons h1 (by decide) (by decide) (by decide)
  have h3 : ZeroReach bBlocked (0, 0) (3, 0) :=
    ZeroReach.cons h2 (by decide) (by decide) (by decide)
  exact ⟨h3, by decide, by decide, by decide, by decide⟩

/-! ### Mine placement never hits the excluded cell (C2) -/

/-- A `setI` either writes cell `c` at a valid index `i = j` or leaves the
read at `j` unchanged. -/
theorem getI_setI_or (b : Board) (i : Int) (c : Cell) (j : Int) :
    (i = j ∧ 0 ≤ i ∧ i.toNat < b.cells.length ∧ getI (setI b i c) j = c) ∨
    getI (setI b i c) j = getI b j := by
  by_cases hij : i = j
  · subst hij
    by_cases hi : 0 ≤ i
    · by_cases hlt : i.toNat < b.cells.length
      · exact Or.inl ⟨rfl, hi, hlt, getI_setI_self b i c hi hlt⟩
      · refine Or.inr (getI_congr_cells ?_ i)
        rw [setI_cells_pos b i c hi]
        exact List.set_eq_of_length_le (by omega)
    · exact Or.inr (getI_congr_cells (setI_cells_neg b i c hi) i)
  · exact Or.inr (getI_setI_ne b i j c hij)

/-- The neighbour-count increment never changes any mine bit. -/
theorem incNeighbour_mine (b : Board) (x y j : Int) :
    (getI (incNeighbour b x y) j).is_mine = (getI b j).is_mine := by
  unfold incNeighbour
  by_cases hm : (getI b (idxB b x y)).is_mine
  · rw [if_pos hm]
  · rw [if_neg hm]
    rcases getI_setI_or b (idxB b x y)
        { getI b (idxB b x y) with neighbor_mines := wrap4 ((getI b (idxB b x y)).neighbor_mines + 1) }
        j with ⟨heq, _, _, hw⟩ | hw
    · rw [hw, ← heq]
    · rw [hw]

/-- Folded neighbour-count increments never change any mine bit. -/
theorem foldl_incNeighbour_mine (l : List (Int × Int)) :
    ∀ (b : Board) (j : Int),
      (getI (l.foldl (fun bb q => incNeighbour bb q.1 q.2) b) j).is_mine =
        (getI b j).is_mine := by
  induction l with
  | nil => intro b j; rfl
  | cons q qs ih =>
    intro b j
    rw [List.foldl_cons, ih, incNeighbour_mine]

/-- Placing a mine at `pos` leaves the mine bit of any other index alone. -/
theorem placeMineAt_mine_ne (b : Board) (pos j : Int) (hne : pos ≠ j) :
    (getI (placeMineAt b pos) j).is_mine = (getI b j).is_mine := by
  unfold placeMineAt
  rw [foldl_incNeighbour_mine]
  rw [getI_setI_ne b pos j _ hne]

/-- The placement loop never turns the blocked cell into a mine. -/
theorem initGo_blocked_not_mine (stream : Nat → Nat) (blocked : Int) :
    ∀ (fuel k : Nat) (placed : Int) (b b' : Board),
      initGo stream blocked fuel k placed b = some b' →
      (getI b blocked).is_mine = false →
      (getI b' blocked).is_mine = false := by
  intro fuel
  induction fuel with
  | zero =>
    intro k placed b b' h hb
    simp only [initGo] at h
    split at h
    · cases h
    · cases h; exact hb
  | succ m ih =>
    intro k placed b b' h hb
    simp only [initGo] at h
    split at h
    · by_cases hpos : ((stream k : Nat) : Int) = blocked
      · rw [if_pos hpos] at h
        exact ih (k + 1) placed b b' h hb
      · rw [if_neg hpos] at h
        by_cases hm : (getI b ((stream k : Nat) : Int)).is_mine
        · rw [if_pos hm] at h
          exact ih (k + 1) placed b b' h hb
        · rw [if_neg hm] at h
          refine ih (k + 1) (placed + 1) _ b' h ?_
          rw [placeMineAt_mine_ne b _ blocked hpos]
          exact hb
    · cases h; exact hb

/-- C2.  Whatever positions the random engine produces, a successful mine
placement excludes the first-revealed cell: its mine bit stays `false`. -/
theorem first_reveal_safe (stream : Nat → Nat) (fuel : Nat) (b : Board)
    (x y : Int) (b' : Board)
    (hxy : inb b x y)
    (hmines : 0 ≤ b.num_mines ∧ b.num_mines < b.width * b.height)
    (hstart : (getI b (idxB b x y)).is_mine = false)
    (hinit : init_board stream fuel b x y = some b') :
    (getI b' (idxB b x y)).is_mine = false :=
  initGo_blocked_not_mine stream (idxB b x y) fuel 0 0 b b' hinit hstart

/-- Witness for C2: a 2x2 board with one mine drawn at position 3,
excluding the first reveal at (0, 0). -/
theorem first_reveal_safe_witness :
    (getI ((init_board (fun _ => 3) 5 (freshBoard 2 2 1) 0 0).getD (freshBoard 2 2 1))
      (idxB (freshBoard 2 2 1) 0 0)).is_mine = false :=
  first_reveal_safe (fun _ => 3) 5 (freshBoard 2 2 1) 0 0 _
    (by decide) (by decide) (by decide) (by decide)

/-! ### The win check (C5) -/

/-- The single pass of `check_board` computes the two `countP`s. -/
theorem countsCB_fold (l : List Cell) (a : Int × Int) :
    l.foldl
      (fun acc c =>
        if c.is_flagged then (if c.is_mine then (acc.1 + 1, acc.2) else acc)
        else if c.is_revealed then acc else (acc.1, acc.2 + 1)) a =
    (a.1 + (l.countP fun c => c.is_flagged && c.is_mine : Nat),
     a.2 + (l.countP fun c => !c.is_flagged && !c.is_revealed : Nat)) := by
  induction l generalizing a with
  | nil => simp
  | cons c l ih =>
    rw [List.foldl_cons, ih, List.countP_cons, List.countP_cons]
    by_cases hf : c.is_flagged <;> by_cases hm : c.is_mine <;>
      by_cases hr : c.is_revealed <;>
      · simp only [hf, hm, hr, Bool.not_true, Bool.not_false, Bool.true_and,
          Bool.false_and, Bool.and_true, Bool.and_false, Bool.and_self,
          if_true, if_false, Bool.false_eq_true, eq_self_iff_true]
        refine Prod.ext ?_ ?_ <;> simp <;> push_cast <;> ring

theorem countsCB_spec (b : Board) :
    countsCB b =
      (((b.cells.countP fun c => c.is_flagged && c.is_mine) : Int),
       ((b.cells.countP fun c => !c.is_flagged && !c.is_revealed) : Int)) := by
  unfold countsCB
  rw [countsCB_fold]
  simp

theorem getD_map_cell (f : Cell → Cell) (hf : f default = default) :
    ∀ (l : List Cell) (n : Nat), (l.map f).getD n default = f (l.getD n default) := by
  intro l
  induction l with
  | nil => intro n; simp [List.getD, hf]
  | cons c l ih =>
    intro n
    cases n with
    | zero => simp [List.getD]
    | succ m => simpa [List.getD] using ih m

/-- C5.  `check_board` declares victory exactly when the number of
flagged mines plus the number of unflagged unrevealed cells equals the
configured mine count (no matter which mines carry the flags); on victory
it flags every mine and raises `game_over`, otherwise it changes nothing. -/
theorem checkWin_spec (b : Board) :
    (((b.cells.countP fun c => c.is_flagged && c.is_mine : Nat) : Int) +
        ((b.cells.countP fun c => !c.is_flagged && !c.is_revealed : Nat) : Int) =
        b.num_mines →
      (check_board b).game_over = true ∧
      ∀ i : Int, (getI b i).is_mine = true → (getI (check_board b) i).is_flagged = true) ∧
    (((b.cells.countP fun c => c.is_flagged && c.is_mine : Nat) : Int) +
        ((b.cells.countP fun c => !c.is_flagged && !c.is_revealed : Nat) : Int) ≠
        b.num_mines →
      check_board b = b) := by
  constructor
  · intro hcond
    have hc : (countsCB b).1 + (countsCB b).2 = b.num_mines := by
      rw [countsCB_spec]; exact hcond
    constructor
    · simp only [check_board, hc, if_pos]
    · intro i hm
      simp only [check_board, hc, if_pos]
      by_cases hi : 0 ≤ i
      · have : getI { b with
            cells := b.cells.map fun c => if c.is_mine then { c with is_flagged := true } else c,
            game_over := true } i =
            (fun c => if c.is_mine then { c with is_flagged := true } else c) (getI b i) := by
          simp only [getI, if_pos hi]
          exact getD_map_cell _ (by decide) b.cells i.toNat
        rw [this]
        simp [hm]
      · rw [getI] at hm
        rw [if_neg hi] at hm
        cases hm
  · intro hcond
    have hc : ¬((countsCB b).1 + (countsCB b).2 = b.num_mines) := by
      rw [countsCB_spec]; exact hcond
    simp only [check_board, if_neg hc]

/-- Witness for C5: the blocked-flood board has 0 flagged mines and 4
unflagged unrevealed cells against `num_mines = 0`, so no victory and no
state change. -/
theorem checkWin_spec_witness : check_board bBlocked = bBlocked :=
  (checkWin_spec bBlocked).2 (by decide)

/-! ### Chord rejection (C7) -/

/-- C7.  A chord attempt (reveal of a revealed numbered cell) whose
flagged-neighbour count mismatches is reported (`true`) and returns the
board entirely unchanged — no cell changes, `game_over` keeps its value. -/
theorem chord_reject (stream : Nat → Nat) (fuel : Nat) (b : Board) (x y : Int)
    (htime : b.time ≠ 1)
    (hrev : (getI b (idxB b x y)).is_revealed = true)
    (hnm : 0 < (getI b (idxB b x y)).neighbor_mines)
    (hflags : flagsAround b x y ≠ (getI b (idxB b x y)).neighbor_mines) :
    applyReveal stream fuel b x y = some (b, true) := by
  simp only [applyReveal, if_neg htime]
  rw [if_pos ⟨hrev, hnm⟩, if_pos hflags]

/-- Witness for C7: chording (0, 0) on `bChordRej` (one mine neighbour,
no flags) is rejected with the board unchanged. -/
theorem chord_reject_witness :
    applyReveal (fun _ => 0) 5 bChordRej 0 0 = some (bChordRej, true) :=
  chord_reject (fun _ => 0) 5 bChordRej 0 0 (by decide) (by decide) (by decide)
    (by decide)

/-! ### Lazy placement is skipped when a flag precedes the first reveal (C3) -/

/-- C3 failing run.  On a fresh 2x2 board with `num_mines = 1`, toggling a
flag first and then performing the first reveal leaves the turn counter at
2 when the reveal is processed, so `init_board` never runs: every state of
the run — including the ones after the reveal — contains zero mines even
though `num_mines = 1`. -/
theorem lazy_init_skipped_cex :
    (runTrace 9 (fun _ _ => 3) 0 [Command.cflag 0 0, Command.creveal 1 1]
        (freshBoard 2 2 1)).map
      (fun tr => tr.map fun s => ((s.cells.countP fun c => c.is_mine), s.num_mines, s.time)) =
      some [(0, 1, 1), (0, 1, 1), (0, 1, 2), (0, 1, 2), (0, 1, 3)] := by
  decide

/-! ### The 4-bit signed bitfield wraps an eight-mine neighbourhood (C4) -/

/-- C4 failing run.  Placing 8 mines on a 3x3 board around the excluded
centre (any draw order must fill all eight outer cells) stores `-8` in the
centre cell's 4-bit signed `neighbor_mines` field although the true
neighbour mine count is 8. -/
theorem neighbour_count_wrap_cex :
    (init_board (fun k => [0, 1, 2, 3, 5, 6, 7, 8].getD k 0) 20 (freshBoard 3 3 8) 1 1).map
      (fun b => ((getI b (idxB b 1 1)).is_mine, (getI b (idxB b 1 1)).neighbor_mines,
        mineNbrCount b 1 1)) = some (false, -8, 8) := by
  decide

/-! ### A full-mine configuration wins at the first check (C10) -/

/-- C10.  When `num_mines = width * height`, the very first `check_board`
call of the loop declares victory on the untouched board: the trace of any
run is the single once-ticked state, it has `game_over = true`, and no
mine was ever placed. -/
theorem full_mines_insta_win (w h : Int) (hw : 0 < w) (hh : 0 < h)
    (fuel : Nat) (streams : Nat → Nat → Nat) (cmds : List Command) :
    runTrace fuel streams 0 cmds (freshBoard w h (w * h)) =
      some [tick (freshBoard w h (w * h))] ∧
    (tick (freshBoard w h (w * h))).game_over = true ∧
    ((tick (freshBoard w h (w * h))).cells.countP fun c => c.is_mine) = 0 := by
  have hcells : (freshBoard w h (w * h)).cells = List.replicate (w * h).toNat default := rfl
  have hcond : (countsCB { freshBoard w h (w * h) with
      time := (freshBoard w h (w * h)).time + 1 }).1 +
      (countsCB { freshBoard w h (w * h) with
      time := (freshBoard w h (w * h)).time + 1 }).2 =
      (freshBoard w h (w * h)).num_mines := by
    rw [countsCB_spec]
    show ((List.countP _ (List.replicate (w * h).toNat default) : Nat) : Int) +
      ((List.countP _ (List.replicate (w * h).toNat default) : Nat) : Int) = w * h
    rw [List.countP_replicate, List.countP_replicate]
    have hwh : (0 : Int) ≤ w * h := by positivity
    simp only [show ((default : Cell).is_flagged && (default : Cell).is_mine) = false from rfl,
      show (!(default : Cell).is_flagged && !(default : Cell).is_revealed) = true from rfl,
      Bool.false_eq_true, if_false, if_true, eq_self_iff_true]
    omega
  have hgo : (tick (freshBoard w h (w * h))).game_over = true := by
    unfold tick check_board
    rw [if_pos hcond]
  have hmines : ((tick (freshBoard w h (w * h))).cells.countP fun c => c.is_mine) = 0 := by
    unfold tick check_board
    rw [if_pos hcond]
    show List.countP _ (List.map _ (List.replicate (w * h).toNat default)) = 0
    rw [List.map_replicate, List.countP_replicate]
    simp
  refine ⟨?_, hgo, hmines⟩
  cases cmds with
  | nil => simp only [runTrace, hgo, if_pos]
  | cons c cs => simp only [runTrace, hgo, if_pos]

/-- Witness for C10: a 2x2 board with 4 mines configured. -/
theorem full_mines_insta_win_witness :
    (tick (freshBoard 2 2 4)).game_over = true :=
  (full_mines_insta_win 2 2 (by decide) (by decide) 0 (fun _ _ => 0) []).2.1

/-! ### No non-mine cell is both revealed and flagged (C8) -/

theorem noRevFlag_congr_cells {b b' : Board} (h : b'.cells = b.cells)
    (hP : noRevFlag b) : noRevFlag b' := by
  intro i
  rw [getI_congr_cells h]
  exact hP i

theorem noRevFlag_of_boardStep {b b' : Board} (h : boardStep b b')
    (hP : noRevFlag b) : noRevFlag b' := by
  intro i hm
  rcases boardStep_cellStep h i with heq | ⟨hcu, heq⟩
  · rw [heq] at hm ⊢
    exact hP i hm
  · rw [heq]
    rintro ⟨-, hfl⟩
    cases hfl

/-- Cells of a blank (replicated-default) grid are blank. -/
theorem getI_replicate (b : Board) (n : Nat)
    (h : b.cells = List.replicate n default) (i : Int) : getI b i = default := by
  unfold getI
  split
  · rw [h]
    simp [List.getD, List.get?_eq_getElem?, List.getElem?_replicate]
    split <;> rfl
  · rfl

theorem noRevFlag_blank (b : Board) (n : Nat)
    (h : b.cells = List.replicate n default) : noRevFlag b := by
  intro i _
  rw [getI_replicate b n h]
  rintro ⟨hr, -⟩
  cases hr

theorem noRevFlag_toggle (b : Board) (x y : Int) (hP : noRevFlag b) :
    noRevFlag (toggle_flag b x y) := by
  unfold toggle_flag
  by_cases hr : (getI b (idxB b x y)).is_revealed
  · rw [if_pos hr]; exact hP
  · rw [if_neg hr]
    intro i hm
    rcases getI_setI_or b (idxB b x y)
        { getI b (idxB b x y) with is_flagged := !(getI b (idxB b x y)).is_flagged } i with
      ⟨heq, _, _, hw⟩ | hw
    · rw [hw]
      rintro ⟨hrv, -⟩
      rw [show ({ getI b (idxB b x y) with
          is_flagged := !(getI b (idxB b x y)).is_flagged } : Cell).is_revealed =
          (getI b (idxB b x y)).is_revealed from rfl] at hrv
      exact hr hrv
    · rw [hw] at hm ⊢
      exact hP i hm

theorem noRevFlag_check (b : Board) (hP : noRevFlag b) :
    noRevFlag (check_board b) := by
  simp only [check_board]
  split
  · intro i hm
    by_cases hi : 0 ≤ i
    · have hmap : getI { b with
          cells := b.cells.map fun c => if c.is_mine then { c with is_flagged := true } else c,
          game_over := true } i =
          (fun c => if c.is_mine then { c with is_flagged := true } else c) (getI b i) := by
        simp only [getI, if_pos hi]
        exact getD_map_cell _ (by decide) b.cells i.toNat
      rw [hmap] at hm ⊢
      by_cases hbm : (getI b i).is_mine
      · simp only [hbm, if_true, eq_self_iff_true] at hm
        cases hm
      · simp only [hbm, Bool.false_eq_true, if_false]
        exact hP i (by simpa using hbm)
    · rw [show getI { b with
          cells := b.cells.map fun c => if c.is_mine then { c with is_flagged := true } else c,
          game_over := true } i = default from by simp [getI, hi]] at hm ⊢
      rintro ⟨hr, -⟩
      cases hr
  · exact hP

theorem noRevFlag_tick (b : Board) (hP : noRevFlag b) : noRevFlag (tick b) :=
  noRevFlag_check _ (noRevFlag_congr_cells rfl hP)

theorem noRevFlag_incNeighbour (b : Board) (x y : Int) (hP : noRevFlag b) :
    noRevFlag (incNeighbour b x y) := by
  simp only [incNeighbour]
  split
  · exact hP
  · intro i hm
    rcases getI_setI_or b (idxB b x y)
        { getI b (idxB b x y) with
          neighbor_mines := wrap4 ((getI b (idxB b x y)).neighbor_mines + 1) } i with
      ⟨heq, _, _, hw⟩ | hw
    · rw [hw] at hm ⊢
      exact hP (idxB b x y) hm
    · rw [hw] at hm ⊢
      exact hP i hm

theorem noRevFlag_foldInc (l : List (Int × Int)) :
    ∀ b : Board, noRevFlag b →
      noRevFlag (l.foldl (fun bb q => incNeighbour bb q.1 q.2) b) := by
  induction l with
  | nil => intro b hP; exact hP
  | cons q qs ih =>
    intro b hP
    exact ih _ (noRevFlag_incNeighbour b q.1 q.2 hP)

theorem noRevFlag_placeMine (b : Board) (pos : Int) (hP : noRevFlag b) :
    noRevFlag (placeMineAt b pos) := by
  simp only [placeMineAt]
  refine noRevFlag_foldInc _ _ ?_
  intro i hm
  rcases getI_setI_or b pos
      { getI b pos with is_mine := true, neighbor_mines := 0 } i with
    ⟨heq, _, _, hw⟩ | hw
  · rw [hw] at hm
    cases hm
  · rw [hw] at hm ⊢
    exact hP i hm

theorem noRevFlag_initGo (stream : Nat → Nat) (blocked : Int) :
    ∀ (fuel k : Nat) (placed : Int) (b b' : Board),
      initGo stream blocked fuel k placed b = some b' →
      noRevFlag b → noRevFlag b' := by
  intro fuel
  induction fuel with
  | zero =>
    intro k placed b b' h hP
    simp only [initGo] at h
    split at h
    · cases h
    · cases h; exact hP
  | succ m ih =>
    intro k placed b b' h hP
    simp only [initGo] at h
    split at h
    · split at h
      · exact ih _ _ _ _ h hP
      · split at h
        · exact ih _ _ _ _ h hP
        · exact ih _ _ _ _ h (noRevFlag_placeMine _ _ hP)
    · cases h; exact hP

theorem noRevFlag_chordGo :
    ∀ (l : List (Int × Int)) (b : Board) (r : Board × List Int),
      chordGo b l = some r → noRevFlag b → noRevFlag r.1 := by
  intro l
  induction l with
  | nil =>
    intro b r h hP
    simp only [chordGo] at h
    cases h; exact hP
  | cons q qs ih =>
    intro b r h hP
    simp only [chordGo] at h
    split at h
    · split at h
      · cases h
      · rename_i r2 hc
        cases h
        exact ih b r2 hc hP
    · split at h
      · cases h
      · rename_i b1 l1 hrg
        split at h
        · cases h
        · rename_i r2 hc
          cases h
          exact ih b1 r2 hc
            (noRevFlag_of_boardStep (revealGoA_boardStep _ b q.1 q.2 (b1, l1) hrg) hP)

theorem noRevFlag_game_over (b : Board) (v : Bool) (hP : noRevFlag b) :
    noRevFlag { b with game_over := v } :=
  noRevFlag_congr_cells rfl hP

theorem noRevFlag_applyReveal (stream : Nat → Nat) (fuel : Nat) (b : Board)
    (x y : Int) (r : Board × Bool) (h : applyReveal stream fuel b x y = some r)
    (hP : noRevFlag b) : noRevFlag r.1 := by
  simp only [applyReveal] at h
  split at h
  · cases h
  · rename_i b1 hb1
    have hP1 : noRevFlag b1 := by
      by_cases ht : b.time = 1
      · rw [if_pos ht] at hb1
        exact noRevFlag_initGo stream _ fuel 0 0 b b1 hb1 hP
      · rw [if_neg ht] at hb1
        cases hb1; exact hP
    split at h
    · split at h
      · cases h; exact hP1
      · split at h
        · cases h
        · rename_i r2 hc
          cases h
          exact noRevFlag_chordGo _ b1 r2 hc hP1
    · split at h
      · cases h; exact hP1
      · split at h
        · cases h
        · rename_i r2 hrg
          cases h
          have := noRevFlag_of_boardStep (revealGoA_boardStep _ b1 x y r2 hrg) hP1
          split
          · exact noRevFlag_game_over _ _ this
          · exact this

theorem noRevFlag_applyCmd (stream : Nat → Nat) (fuel : Nat) (b : Board)
    (c : Command) (b' : Board) (h : applyCmd stream fuel b c = some b')
    (hP : noRevFlag b) : noRevFlag b' := by
  cases c with
  | creveal x y =>
    simp only [applyCmd] at h
    split at h
    · cases h
    · rename_i r hr
      cases h
      exact noRevFlag_applyReveal stream fuel b x y r hr hP
  | cflag x y =>
    simp only [applyCmd] at h
    cases h
    exact noRevFlag_toggle b x y hP
  | cnew x y =>
    simp only [applyCmd] at h
    cases h
    exact noRevFlag_blank _ _ rfl

theorem noRevFlag_runTrace (fuel : Nat) (streams : Nat → Nat → Nat) :
    ∀ (cmds : List Command) (k : Nat) (b : Board) (tr : List Board),
      runTrace fuel streams k cmds b = some tr → noRevFlag b →
      ∀ s ∈ tr, noRevFlag s := by
  intro cmds
  induction cmds with
  | nil =>
    intro k b tr h hP s hs
    simp only [runTrace] at h
    split at h <;>
      · cases h
        rcases List.mem_singleton.1 hs with rfl
        exact noRevFlag_tick b hP
  | cons c cs ih =>
    intro k b tr h hP s hs
    simp only [runTrace] at h
    split at h
    · cases h
      rcases List.mem_singleton.1 hs with rfl
      exact noRevFlag_tick b hP
    · split at h
      · cases h
      · rename_i b2 hb2
        split at h
        · cases h
        · rename_i tr2 htr2
          cases h
          have ht := noRevFlag_tick b hP
          have hb2P := noRevFlag_applyCmd _ fuel (tick b) c b2 hb2 ht
          rcases List.mem_cons.1 hs with rfl | hs2
          · exact ht
          · rcases List.mem_cons.1 hs2 with rfl | hs3
            · exact hb2P
            · exact ih _ b2 tr2 htr2 hb2P s hs3

/-- C8 (amended).  In every state of every run started from a fresh board,
no non-mine cell is simultaneously revealed and flagged.  (Mine cells can
end up revealed and flagged: see `revealed_flagged_mine_cex`.) -/
theorem no_revealed_flagged_nonmine (w h m : Int) (fuel : Nat)
    (streams : Nat → Nat → Nat) (cmds : List Command) (k : Nat) (tr : List Board)
    (hrun : runTrace fuel streams k cmds (freshBoard w h m) = some tr) :
    ∀ s ∈ tr, noRevFlag s :=
  noRevFlag_runTrace fuel streams cmds k (freshBoard w h m) tr hrun
    (noRevFlag_blank _ _ rfl)

/-- Witness for C8: after the one-command run revealing (0, 0), the
revealed non-mine cell 0 of the middle trace state is unflagged. -/
theorem no_revealed_flagged_nonmine_witness :
    (getI { width := 2, height := 2, num_mines := 1,
            cells := [cc false true false 1, cc false false false 1,
                      cc false false false 1, cc true false false 0],
            game_over := false, time := 1 } 0).is_flagged = false := by
  have h := no_revealed_flagged_nonmine 2 2 1 9 (fun _ _ => 3) [Command.creveal 0 0] 0
    [{ width := 2, height := 2, num_mines := 1,
       cells := [cc false false false 0, cc false false false 0,
                 cc false false false 0, cc false false false 0],
       game_over := false, time := 1 },
     { width := 2, height := 2, num_mines := 1,
       cells := [cc false true false 1, cc false false false 1,
                 cc false false false 1, cc true false false 0],
       game_over := false, time := 1 },
     { width := 2, height := 2, num_mines := 1,
       cells := [cc false true false 1, cc false false false 1,
                 cc false false false 1, cc true false false 0],
       game_over := false, time := 2 }] (by decide)
  have h0 := h _ (List.mem_cons_of_mem _ (List.mem_cons_self _ _)) 0 (by decide)
  cases hf : (getI { width := 2, height := 2, num_mines := 1,
                     cells := [cc false true false 1, cc false false false 1,
                               cc false false false 1, cc true false false 0],
                     game_over := false, time := 1 } 0).is_flagged
  · rfl
  · exact absurd ⟨by decide, hf⟩ h0

/-- Counterexample to C8 as stated.  In the run `cexCmds` on a fresh 2x2
board with the mine drawn at position 3, the player reveals the two
numbered cells, then reveals the mine (losing); the next loop iteration
still runs `check_board` before breaking, the win condition holds (one
unrevealed safe cell balances the revealed mine), and the victory branch
force-flags the already revealed mine: the final reachable state has cell
3 with `is_revealed = true` and `is_flagged = true`. -/
theorem revealed_flagged_mine_cex :
    (runTrace 9 (fun _ _ => 3) 0 cexCmds (freshBoard 2 2 1)).map
      (fun tr => tr.map fun s =>
        ((getI s 3).is_mine, (getI s 3).is_revealed, (getI s 3).is_flagged, s.game_over)) =
      some [(false, false, false, false), (true, false, false, false),
        (true, false, false, false), (true, false, false, false),
        (true, false, false, false), (true, true, false, true),
        (true, true, true, true)] := by
  decide

/-! ### Chord with matching flags (C6) -/

/-- A board step preserves count consistency: it changes no mine bit, no
stored count, and no dimension. -/
theorem consistent_of_boardStep {b b' : Board} (h : boardStep b b')
    (hc : consistent b) : consistent b' := by
  intro u v huv hm
  have hw := h.1
  have hh := h.2.1
  rw [idxB_congr hw] at hm ⊢
  rw [cellStep_mine (boardStep_cellStep h (idxB b u v))] at hm
  rw [cellStep_nm (boardStep_cellStep h (idxB b u v))]
  have := hc u v ((inb_congr hw hh u v).1 huv) hm
  rw [this]
  unfold mineNbrCount
  rw [neighbours_congr hw hh]
  congr 1
  refine List.countP_congr ?_
  intro q _
  rw [idxB_congr hw, cellStep_mine (boardStep_cellStep h (idxB b q.1 q.2))]

/-- On a consistent board, `RevPath`s from a non-mine cell never end on a
mine: interior cells have stored count 0, hence no mine neighbours. -/
theorem RevPath_no_mine {b : Board} (hcons : consistent b) {s t : Int × Int}
    (hs : inb b s.1 s.2) (hsm : (getI b (idxB b s.1 s.2)).is_mine = false)
    (hp : RevPath b s t) : (getI b (idxB b t.1 t.2)).is_mine = false := by
  induction hp with
  | nil _ => exact hsm
  | @cons iq er hpred hm hnm hmem hu ih =>
    have hq : inb b iq.1 iq.2 := RevPath_inb hs hpred
    have hcount := hcons iq.1 iq.2 hq hm
    have hge : (0 : Int) ≤ mineNbrCount b iq.1 iq.2 := Int.natCast_nonneg _
    have hzero : ((neighbours b iq.1 iq.2).countP
        fun p => (getI b (idxB b p.1 p.2)).is_mine) = 0 := by
      unfold mineNbrCount at hcount hge
      omega
    have := (List.countP_eq_zero.1 hzero) er hmem
    simpa using this

/-- The flood fill on a consistent board from a non-mine start changes no
cell of any in-bounds coordinate carrying a mine. -/
theorem revealGoA_mine_frame (n : Nat) (b : Board) (x y : Int)
    (r : Board × List Int) (h : revealGoA n b x y = some r)
    (hxy : inb b x y) (hcons : consistent b)
    (hsm : (getI b (idxB b x y)).is_mine = false) :
    ∀ t : Int × Int, inb b t.1 t.2 → (getI b (idxB b t.1 t.2)).is_mine = true →
      getI r.1 (idxB b t.1 t.2) = getI b (idxB b t.1 t.2) := by
  intro t hint hmt
  rcases boardStep_cellStep (revealGoA_boardStep n b x y r h) (idxB b t.1 t.2) with
    heq | ⟨hcu, hmk⟩
  · exact heq
  · exfalso
    have hrevafter : (getI r.1 (idxB b t.1 t.2)).is_revealed = true := by
      rw [hmk]
    rcases revealGoA_sound n b x y r h hxy t hint hrevafter with hbf | hpath
    · rw [hcu] at hbf; cases hbf
    · have := RevPath_no_mine hcons hxy hsm hpath
      rw [hmt] at this; cases this

/-- `chordGo` succeeds on a list of in-bounds coordinates. -/
theorem chordGo_isSome :
    ∀ (l : List (Int × Int)) (b : Board), (∀ q ∈ l, inb b q.1 q.2) →
      (b.width * b.height).toNat ≤ b.cells.length →
      (chordGo b l).isSome := by
  intro l
  induction l with
  | nil => intro b _ _; simp [chordGo]
  | cons q qs ih =>
    intro b hq hlen
    simp only [chordGo]
    by_cases hm : (getI b (idxB b q.1 q.2)).is_mine
    · rw [if_pos hm]
      obtain ⟨r2, hr2⟩ := Option.isSome_iff_exists.1
        (ih b (fun p hp => hq p (List.mem_cons_of_mem q hp)) hlen)
      rw [hr2]
      rfl
    · rw [if_neg hm]
      obtain ⟨r1, hr1⟩ := reveal_total b q.1 q.2 (hq q (List.mem_cons_self q qs)) hlen
      obtain ⟨b1, l1⟩ := r1
      rw [hr1]
      have hstep := revealGoA_boardStep _ b q.1 q.2 (b1, l1) hr1
      have hw := hstep.1
      have hh := hstep.2.1
      have hl := hstep.2.2.2.2.2.1
      obtain ⟨r2, hr2⟩ := Option.isSome_iff_exists.1
        (ih b1 (fun p hp => (inb_congr hw hh p.1 p.2).2 (hq p (List.mem_cons_of_mem q hp)))
          (by rw [hl, hw, hh]; exact hlen))
      simp only [hr2]
      rfl

/-- `chordGo` is a composition of flood fills, hence a board step. -/
theorem chordGo_boardStep :
    ∀ (l : List (Int × Int)) (b : Board) (r : Board × List Int),
      chordGo b l = some r → boardStep b r.1 := by
  intro l
  induction l with
  | nil =>
    intro b r h
    simp only [chordGo] at h
    cases h
    exact boardStep_refl b
  | cons q qs ih =>
    intro b r h
    simp only [chordGo] at h
    split at h
    · split at h
      · cases h
      · rename_i r2 hc
        cases h
        exact ih b r2 hc
    · split at h
      · cases h
      · rename_i b1 l1 hrg
        split at h
        · cases h
        · rename_i r2 hc
          cases h
          exact boardStep_trans (revealGoA_boardStep _ b q.1 q.2 (b1, l1) hrg) (ih b1 r2 hc)

/-- After `chordGo`, every listed non-mine coordinate is revealed. -/
theorem chordGo_reveals_nonmine :
    ∀ (l : List (Int × Int)) (b : Board), (∀ q ∈ l, inb b q.1 q.2) →
      (b.width * b.height).toNat ≤ b.cells.length →
      ∀ r : Board × List Int, chordGo b l = some r →
      ∀ q ∈ l, (getI b (idxB b q.1 q.2)).is_mine = false →
        (getI r.1 (idxB b q.1 q.2)).is_revealed = true := by
  intro l
  induction l with
  | nil => intro b _ _ r _ q hq; cases hq
  | cons p ps ih =>
    intro b hql hlen r h q hq hqm
    simp only [chordGo] at h
    split at h
    · rename_i hpm
      split at h
      · cases h
      · rename_i r2 hc
        cases h
        rcases List.mem_cons.1 hq with rfl | hq2
        · rw [hqm] at hpm; cases hpm
        · exact ih b (fun p2 hp2 => hql p2 (List.mem_cons_of_mem p hp2)) hlen r2 hc q hq2 hqm
    · split at h
      · cases h
      · rename_i b1 l1 hrg
        split at h
        · cases h
        · rename_i r2 hc
          cases h
          have hstep1 := revealGoA_boardStep _ b p.1 p.2 (b1, l1) hrg
          have hw := hstep1.1
          have hh := hstep1.2.1
          have hl := hstep1.2.2.2.2.2.1
          rcases List.mem_cons.1 hq with rfl | hq2
          · have hmk := revealGoA_marks _ b q.1 q.2 (b1, l1) hrg
              (hql q (List.mem_cons_self q ps)) hlen
            exact cellStep_rev_mono
              (boardStep_cellStep (chordGo_boardStep ps b1 r2 hc) (idxB b q.1 q.2)) hmk
          · have := ih b1
              (fun p2 hp2 => (inb_congr hw hh p2.1 p2.2).2 (hql p2 (List.mem_cons_of_mem p hp2)))
              (by rw [hl, hw, hh]; exact hlen) r2 hc q hq2
              (by rw [idxB_congr hw,
                cellStep_mine (boardStep_cellStep hstep1 (idxB b q.1 q.2))]; exact hqm)
            rw [idxB_congr hw] at this
            exact this

/-- `chordGo` on a consistent board leaves every in-bounds mine cell
completely unchanged. -/
theorem chordGo_mine_frame :
    ∀ (l : List (Int × Int)) (b : Board), (∀ q ∈ l, inb b q.1 q.2) →
      (b.width * b.height).toNat ≤ b.cells.length → consistent b →
      ∀ r : Board × List Int, chordGo b l = some r →
      ∀ t : Int × Int, inb b t.1 t.2 → (getI b (idxB b t.1 t.2)).is_mine = true →
        getI r.1 (idxB b t.1 t.2) = getI b (idxB b t.1 t.2) := by
  intro l
  induction l with
  | nil =>
    intro b _ _ _ r h t _ _
    simp only [chordGo] at h
    cases h
    rfl
  | cons p ps ih =>
    intro b hql hlen hcons r h t hint hmt
    simp only [chordGo] at h
    split at h
    · split at h
      · cases h
      · rename_i r2 hc
        cases h
        exact ih b (fun p2 hp2 => hql p2 (List.mem_cons_of_mem p hp2)) hlen hcons r2 hc
          t hint hmt
    · rename_i hpm
      split at h
      · cases h
      · rename_i b1 l1 hrg
        split at h
        · cases h
        · rename_i r2 hc
          cases h
          have hstep1 := revealGoA_boardStep _ b p.1 p.2 (b1, l1) hrg
          have hw := hstep1.1
          have hh := hstep1.2.1
          have hl := hstep1.2.2.2.2.2.1
          have hframe1 := revealGoA_mine_frame _ b p.1 p.2 (b1, l1) hrg
            (hql p (List.mem_cons_self p ps)) hcons (by simpa using hpm) t hint hmt
          have hrest := ih b1
            (fun p2 hp2 => (inb_congr hw hh p2.1 p2.2).2 (hql p2 (List.mem_cons_of_mem p hp2)))
            (by rw [hl, hw, hh]; exact hlen)
            (consistent_of_boardStep hstep1 hcons) r2 hc t
            ((inb_congr hw hh t.1 t.2).2 hint)
            (by rw [idxB_congr hw, hframe1]; exact hmt)
          rw [idxB_congr hw] at hrest
          rw [hrest, hframe1]

/-- C6 (amended).  A chord on a revealed numbered cell whose flag count
matches reveals every non-mine neighbour — including wrongly flagged
non-mine neighbours, whose flags are cleared — while every in-bounds mine
cell (in particular every mine neighbour, flagged or not) is left
completely untouched, and `game_over` keeps its value, so a chord can
never signal a loss. -/
theorem chord_success (stream : Nat → Nat) (fuel : Nat) (b : Board) (x y : Int)
    (htime : b.time ≠ 1) (hxy : inb b x y)
    (hlen : (b.width * b.height).toNat ≤ b.cells.length)
    (hrev : (getI b (idxB b x y)).is_revealed = true)
    (hnm : 0 < (getI b (idxB b x y)).neighbor_mines)
    (hflags : flagsAround b x y = (getI b (idxB b x y)).neighbor_mines)
    (hcons : consistent b) :
    ∃ b2 : Board, applyReveal stream fuel b x y = some (b2, false) ∧
      (∀ q ∈ neighbours b x y, (getI b (idxB b q.1 q.2)).is_mine = false →
        (getI b2 (idxB b q.1 q.2)).is_revealed = true) ∧
      (∀ t : Int × Int, inb b t.1 t.2 → (getI b (idxB b t.1 t.2)).is_mine = true →
        getI b2 (idxB b t.1 t.2) = getI b (idxB b t.1 t.2)) ∧
      b2.game_over = b.game_over := by
  obtain ⟨r, hr⟩ := Option.isSome_iff_exists.1
    (chordGo_isSome (neighbours b x y) b (fun q hq => neighbours_inb b hxy hq) hlen)
  refine ⟨r.1, ?_, ?_, ?_, ?_⟩
  · simp only [applyReveal, if_neg htime]
    rw [if_pos ⟨hrev, hnm⟩, if_neg (by rw [hflags]; exact fun hne => hne rfl), hr]
  · exact fun q hq => chordGo_reveals_nonmine (neighbours b x y) b
      (fun p hp => neighbours_inb b hxy hp) hlen r hr q hq
  · exact chordGo_mine_frame (neighbours b x y) b
      (fun p hp => neighbours_inb b hxy hp) hlen hcons r hr
  · exact (chordGo_boardStep (neighbours b x y) b r hr).2.2.2.1

/-- Witness for C6: the chord on `bChord` at (0, 0) succeeds without
reporting an error. -/
theorem chord_success_witness :
    (applyReveal (fun _ => 0) 5 bChord 0 0).map Prod.snd = some false := by
  obtain ⟨b2, hb2, -, -, -⟩ :=
    chord_success (fun _ => 0) 5 bChord 0 0 (by decide) (by decide) (by decide)
      (by decide) (by decide) (by decide)
      (by
        intro u v huv hm
        obtain ⟨h1, h2, h3, h4⟩ := huv
        have h2a : u < 2 := h2
        have h4a : v < 2 := h4
        revert hm
        interval_cases u <;> interval_cases v <;> decide)
  rw [hb2]
  rfl

/-- Counterexample to C6 as stated: in `bChord` the neighbour (1, 0) of
the chorded cell is flagged and not a mine; the chord reveals it and
clears its flag, so flagged neighbours are not "left untouched". -/
theorem chord_flag_cleared_cex :
    (getI bChord 1).is_mine = false ∧ (getI bChord 1).is_flagged = true ∧
    (getI bChord 1).is_revealed = false ∧
    (applyReveal (fun _ => 0) 5 bChord 0 0).map
      (fun r => (r.2, (getI r.1 1).is_revealed, (getI r.1 1).is_flagged)) =
      some (false, true, false) := by
  refine ⟨by decide, by decide, by decide, by decide⟩

/-! ### All cell accesses are in bounds (C9) -/

theorem neighbours_idx_bounds (b : Board) {x y : Int} (hxy : inb b x y) :
    ∀ q ∈ neighbours b x y, 0 ≤ idxB b q.1 q.2 ∧ idxB b q.1 q.2 < b.width * b.height :=
  fun q hq => idxB_bounds b q.1 q.2 (neighbours_inb b hxy hq)

/-- Log bounds for one `revealSeq` pass, given them for each single call. -/
theorem revealSeq_log (n : Nat)
    (hf : ∀ (b : Board) (x y : Int) (r : Board × List Int),
      revealGoA n b x y = some r → inb b x y →
      ∀ i ∈ r.2, 0 ≤ i ∧ i < b.width * b.height) :
    ∀ (l : List (Int × Int)) (b : Board), (∀ q ∈ l, inb b q.1 q.2) →
      ∀ r : Board × List Int, revealSeq (revealGoA n) b l = some r →
      ∀ i ∈ r.2, 0 ≤ i ∧ i < b.width * b.height := by
  intro l
  induction l with
  | nil =>
    intro b _ r h i hi
    simp only [revealSeq] at h
    cases h
    cases hi
  | cons q qs ih =>
    intro b hql r h i hi
    simp only [revealSeq] at h
    split at h
    · cases h
    · rename_i b1 l1 hf1
      split at h
      · cases h
      · rename_i b2 l2 hseq
        cases h
        have hstep1 := revealGoA_boardStep n b q.1 q.2 (b1, l1) hf1
        have hw := hstep1.1
        have hh := hstep1.2.1
        rcases List.mem_append.1 hi with hi1 | hi2
        · exact hf b q.1 q.2 (b1, l1) hf1 (hql q (List.mem_cons_self q qs)) i hi1
        · have := ih b1
            (fun p hp => (inb_congr hw hh p.1 p.2).2 (hql p (List.mem_cons_of_mem q hp)))
            (b2, l2) hseq i hi2
          rw [hw, hh] at this
          exact this

/-- Every index in the flood fill's access log is in `[0, width*height)`. -/
theorem revealGoA_log :
    ∀ (n : Nat) (b : Board) (x y : Int) (r : Board × List Int),
      revealGoA n b x y = some r → inb b x y →
      ∀ i ∈ r.2, 0 ≤ i ∧ i < b.width * b.height := by
  intro n
  induction n with
  | zero => intro b x y r h; cases h
  | succ m ih =>
    intro b x y r h hxy i hi
    simp only [revealGoA] at h
    by_cases hrv : (getI b (idxB b x y)).is_revealed
    · rw [if_pos hrv] at h
      cases h
      rcases List.mem_singleton.1 hi with rfl
      exact idxB_bounds b x y hxy
    · rw [if_neg hrv] at h
      by_cases hmine : (getI b (idxB b x y)).is_mine
      · rw [if_pos hmine] at h
        cases h
        rcases List.mem_singleton.1 hi with rfl
        exact idxB_bounds b x y hxy
      · rw [if_neg hmine] at h
        by_cases hnm : 0 < (getI b (idxB b x y)).neighbor_mines
        · rw [if_pos hnm] at h
          cases h
          rcases List.mem_singleton.1 hi with rfl
          exact idxB_bounds b x y hxy
        · rw [if_neg hnm] at h
          split at h
          · cases h
          · rename_i b2 l2 hseq
            cases h
            rcases List.mem_cons.1 hi with rfl | hi2
            · exact idxB_bounds b x y hxy
            · have hmark : boardStep b (setI b (idxB b x y)
                  { getI b (idxB b x y) with is_flagged := false, is_revealed := true }) := by
                simpa using boardStep_mark b (idxB b x y) (by simpa using hrv)
              have hw := hmark.1
              have hh := hmark.2.1
              have := revealSeq_log m ih _ _
                (fun p hp => neighbours_inb _ ((inb_congr hw hh x y).2 hxy) hp)
                (b2, l2) hseq i hi2
              rw [hw, hh] at this
              exact this

/-- Every index in the chord pass's access log is in `[0, width*height)`. -/
theorem chordGo_log :
    ∀ (l : List (Int × Int)) (b : Board), (∀ q ∈ l, inb b q.1 q.2) →
      ∀ r : Board × List Int, chordGo b l = some r →
      ∀ i ∈ r.2, 0 ≤ i ∧ i < b.width * b.height := by
  intro l
  induction l with
  | nil =>
    intro b _ r h i hi
    simp only [chordGo] at h
    cases h
    cases hi
  | cons q qs ih =>
    intro b hql r h i hi
    simp only [chordGo] at h
    split at h
    · split at h
      · cases h
      · rename_i r2 hc
        cases h
        rcases List.mem_cons.1 hi with rfl | hi2
        · exact idxB_bounds b q.1 q.2 (hql q (List.mem_cons_self q qs))
        · exact ih b (fun p hp => hql p (List.mem_cons_of_mem q hp)) r2 hc i hi2
    · split at h
      · cases h
      · rename_i b1 l1 hrg
        split at h
        · cases h
        · rename_i r2 hc
          cases h
          have hstep1 := revealGoA_boardStep _ b q.1 q.2 (b1, l1) hrg
          have hw := hstep1.1
          have hh := hstep1.2.1
          rcases List.mem_cons.1 hi with rfl | hi2
          · exact idxB_bounds b q.1 q.2 (hql q (List.mem_cons_self q qs))
          · rcases List.mem_append.1 hi2 with hi3 | hi3
            · exact revealGoA_log _ b q.1 q.2 (b1, l1) hrg
                (hql q (List.mem_cons_self q qs)) i hi3
            · have := ih b1
                (fun p hp => (inb_congr hw hh p.1 p.2).2 (hql p (List.mem_cons_of_mem q hp)))
                r2 hc i hi3
              rw [hw, hh] at this
              exact this

/-- C9.  For an in-bounds command coordinate, every flattened index the
engine's handlers touch is in `[0, width*height)`: the handler's direct
access, the flag-count pass over the neighbours, every access of the
recursive flood fill, and every access of the chord pass. -/
theorem access_bounds (b : Board) (x y : Int) (hxy : inb b x y) :
    (0 ≤ idxB b x y ∧ idxB b x y < b.width * b.height) ∧
    (∀ q ∈ neighbours b x y, 0 ≤ idxB b q.1 q.2 ∧ idxB b q.1 q.2 < b.width * b.height) ∧
    (∀ (n : Nat) (r : Board × List Int), revealGoA n b x y = some r →
      ∀ i ∈ r.2, 0 ≤ i ∧ i < b.width * b.height) ∧
    (∀ r : Board × List Int, chordGo b (neighbours b x y) = some r →
      ∀ i ∈ r.2, 0 ≤ i ∧ i < b.width * b.height) :=
  ⟨idxB_bounds b x y hxy,
   neighbours_idx_bounds b hxy,
   fun n r h => revealGoA_log n b x y r h hxy,
   fun r h => chordGo_log (neighbours b x y) b
     (fun q hq => neighbours_inb b hxy hq) r h⟩

/-- Witness for C9: all accesses of a reveal at (0, 0) on a blank 2x2
board are in bounds. -/
theorem access_bounds_witness :
    0 ≤ idxB (freshBoard 2 2 0) 0 0 ∧
    idxB (freshBoard 2 2 0) 0 0 < (freshBoard 2 2 0).width * (freshBoard 2 2 0).height :=
  (access_bounds (freshBoard 2 2 0) 0 0 (by decide)).1

end Sweeper
